import Mathlib

/-!
Shallow embedding of the semantic file-index synchronization subsystem of
`src/main.py` (files_to_clipboard).

Modelling conventions:
* Python floats (timestamps, vector distances, embedding components) are
  rationals (`Rat`).
* ChromaDB record ids are `hashlib.md5(file_path)`, a deterministic function of
  the path assumed collision-free by the source; the model keys records by the
  path itself.
* Network effects (`requests.get`/`requests.post` outcomes, the metered-network
  probe, Ollama embedding responses) are environment inputs: booleans and
  oracle functions supplied to the embedded definitions.
* File reads are modelled by total functions on an `FS` record; per-entry
  exceptions that the source swallows (`print` + continue) do not occur in the
  model because the corresponding reads are total.
* Paths are relative, '/'-separated strings, exactly as the source produces
  them (`os.path.relpath(...).replace(os.path.sep, '/')`); `os.path.join`
  and `os.path.normpath` around filesystem probes are modelled as identity on
  such paths.
-/

/-- Timestamps are Python floats (`time.time()`, `os.path.getmtime`). -/
abbrev Time := Rat

/-- Python code-point lexicographic string comparison (`a <= b`), on char
lists. -/
def charListLE : List Char → List Char → Bool
  | [], _ => true
  | _ :: _, [] => false
  | a :: as, b :: bs =>
    if a.toNat < b.toNat then true
    else if b.toNat < a.toNat then false
    else charListLE as bs

/-- Python `a <= b` on strings. -/
def strLE (a b : String) : Bool := charListLE a.toList b.toList

/-- ASCII lowercase of one character (Python `str.lower`, restricted to the
ASCII range the repository's paths use). -/
def pyLowerChar (c : Char) : Char :=
  if 65 ≤ c.toNat ∧ c.toNat ≤ 90 then Char.ofNat (c.toNat + 32) else c

/-- Python `str.lower()`. -/
def pyLower (s : String) : String := String.mk (s.toList.map pyLowerChar)

/-- Index of the last occurrence of `c` in `cs` (Python `str.rfind`), if any. -/
def lastIdxOf (c : Char) (cs : List Char) : Option Nat :=
  (List.range cs.length).foldl
    (fun acc i => if cs.getD i ' ' == c then some i else acc) none

/-- The extension component of `os.path.splitext` on a posix path: the suffix
from the last '.' of the final path component, unless that component consists
only of leading dots up to it (CPython `genericpath._splitext`). -/
def splitextExt (p : String) : String :=
  let cs := p.toList
  let sepIdx : Int := match lastIdxOf '/' cs with
    | none => -1
    | some i => (i : Int)
  match lastIdxOf '.' cs with
  | none => ""
  | some di =>
    if decide (sepIdx < (di : Int)) &&
        (List.range cs.length).any
          (fun j => decide (sepIdx < (j : Int)) && decide (j < di) &&
            !(cs.getD j ' ' == '.'))
    then String.mk (cs.drop di) else ""

/-- `os.path.splitext(fp)[1].lower()`. -/
def extLower (p : String) : String := pyLower (splitextExt p)

/-- `os.path.basename`: the part of the path after the last '/'. -/
def basename (p : String) : String :=
  String.mk (p.toList.foldl (fun acc c => if c == '/' then [] else acc ++ [c]) [])

/-- The binary-image extension set excluded from indexing
(`{'.png', '.jpg', '.jpeg', '.gif', '.bmp', '.webp'}`, main.py lines 209/285). -/
def IMAGE_EXTS : List String := [".png", ".jpg", ".jpeg", ".gif", ".bmp", ".webp"]

/-- Python whitespace characters stripped by `str.strip()`. -/
def isPySpace (c : Char) : Bool :=
  c == ' ' || c == '\t' || c == '\n' || c == '\r' || c == Char.ofNat 11 || c == Char.ofNat 12

/-- Python `str.strip()`. -/
def pyStrip (s : String) : String :=
  String.mk (((s.toList.dropWhile isPySpace).reverse.dropWhile isPySpace).reverse)

/-- Metadata stored with each index entry (main.py line 262). -/
structure Metadata where
  file_path : String
  file_name : String
  file_ext : String
  indexed_at : Time
  file_size : Nat
  file_mtime : Time
deriving DecidableEq, Repr

/-- One record of the ChromaDB collection: embedding vector, document text and
metadata, keyed by `md5(file_path)` (modelled as the path itself). -/
structure StoreRecord where
  embedding : List Rat
  document : String
  metadata : Metadata
deriving DecidableEq, Repr

/-- The persistent per-project collection. -/
abbrev Collection := List StoreRecord

/-- The last element of `l` satisfying `q`, if any: the "last write wins"
semantics of a Python dict comprehension keyed by `q`. -/
def lastMatch (q : α → Bool) : List α → Option α
  | [] => none
  | x :: xs =>
    match lastMatch q xs with
    | some y => some y
    | none => if q x then some x else none

/-- The record stored under path `p` (ids are `md5(file_path)`, so lookup is by
path; with duplicate paths the later record wins, as in a dict comprehension). -/
def lookupEntry (col : Collection) (p : String) : Option StoreRecord :=
  lastMatch (fun r => r.metadata.file_path == p) col

/-- `VectorDatabaseManager.get_indexed_files` (main.py 191-201): project the
collection metadata to `{file_path: indexed_at}` pairs.  The per-metadata
guards (`m and "file_path" in m and isinstance(..., str)`) always hold in the
model, where every metadata record carries a string `file_path`. -/
def get_indexed_files (col : Collection) : List (String × Time) :=
  col.map (fun r => (r.metadata.file_path, r.metadata.indexed_at))

/-- Python dict lookup on an association list built by comprehension: the last
binding of the key wins. -/
def dictLookup (l : List (String × Time)) (k : String) : Option Time :=
  (lastMatch (fun kv => kv.1 == k) l).map (fun kv => kv.2)

/-- Keys of a Python dict built from an association list, in first-insertion
order, without duplicates. -/
def dedupFirstAux (seen : List String) : List String → List String
  | [] => []
  | x :: xs =>
    if x ∈ seen then dedupFirstAux seen xs else x :: dedupFirstAux (x :: seen) xs

/-- `indexed.keys()` for the dict built from `l`. -/
def dictKeys (l : List (String × Time)) : List String :=
  dedupFirstAux [] (l.map Prod.fst)

/-- The filesystem as seen through `os.path.exists`, `os.path.getmtime` and
`open(...).read()` on project-relative paths. -/
structure FS where
  onDisk : String → Bool
  mtime : String → Time
  content : String → String

/-- The staleness test of `get_files_to_index` (main.py line 211):
`fp not in indexed or mtime > indexed.get(fp, 0.0)`. -/
def staleCheck (fs : FS) (indexed : List (String × Time)) (fp : String) : Bool :=
  match dictLookup indexed fp with
  | none => true
  | some t => decide (t < fs.mtime fp)

/-- `VectorDatabaseManager.get_files_to_index` (main.py 203-217): the
synchronization plan `(to_index, to_remove)`. -/
def get_files_to_index (fs : FS) (col : Collection) (all_files : List String) :
    List String × List String :=
  let indexed := get_indexed_files col
  let to_index := all_files.filter (fun fp =>
    fs.onDisk fp && !(IMAGE_EXTS.contains (extLower fp)) && staleCheck fs indexed fp)
  let to_remove := (dictKeys indexed).filter (fun ifp =>
    !(all_files.contains ifp) && !(fs.onDisk ifp))
  (to_index, to_remove)

/-- `VectorDatabaseManager.remove_file_from_index` (main.py 219-222): delete by
`md5(file_path)`. -/
def deleteId (p : String) (col : Collection) : Collection :=
  col.filter (fun r => !(r.metadata.file_path == p))

/-- ChromaDB `collection.upsert` with id `md5(file_path)`: overwrite any record
stored under the same id. -/
def upsert (id : String) (v : List Rat) (doc : String) (meta : Metadata)
    (col : Collection) : Collection :=
  col.filter (fun r => !(r.metadata.file_path == id)) ++
    [{ embedding := v, document := doc, metadata := meta }]

/-- Progress phase reported by `auto_index_files` ("removing" / "indexing"). -/
inductive Phase
  | removing
  | indexing
deriving DecidableEq, Repr

/-- One `progress_callback(op_c, total_ops, phase)` invocation. -/
structure ProgressEvent where
  completed : Nat
  total : Nat
  phase : Phase
deriving DecidableEq, Repr

/-- Trace of what the worker loop did with each unit of work. -/
inductive Op where
  | removeOp : String → Op
  | indexOp : String → Op
  | skipEmptyOp : String → Op
  | skipEmbedOp : String → Op
deriving DecidableEq, Repr

/-- Worker-loop state of `auto_index_files` (main.py 250-266): the collection,
the counters `removed_c`, `indexed_c`, `op_c`, and the observable trace. -/
structure SyncState where
  col : Collection
  removed_c : Nat
  indexed_c : Nat
  op_c : Nat
  events : List ProgressEvent
  ops : List Op
deriving Repr

/-- The removal loop (main.py 251-255).  `cancel k` is the value of
`stop_event.is_set()` at the k-th check (one check precedes each unit of
work); `remove_file_from_index` succeeds in the model (no store exceptions). -/
def runRemove (cancel : Nat → Bool) (total : Nat) :
    List String → SyncState → SyncState
  | [], st => st
  | fp :: rest, st =>
    if cancel st.op_c then st
    else
      runRemove cancel total rest
        { col := deleteId fp st.col
          removed_c := st.removed_c + 1
          indexed_c := st.indexed_c
          op_c := st.op_c + 1
          events := st.events ++ [⟨st.op_c + 1, total, Phase.removing⟩]
          ops := st.ops ++ [Op.removeOp fp] }

/-- The body of one indexing unit (main.py 258-264): read the content, skip if
empty after strip, else embed; on a `None` embedding `add_file_to_index`
returns False (skip); on success upsert the entry with current
size/mtime/indexed-timestamp.  `clock k` is `time.time()` at the k-th unit. -/
def indexStep (fs : FS) (embed : String → Option (List Rat)) (clock : Nat → Time)
    (fp : String) (st : SyncState) : SyncState :=
  let content := fs.content fp
  if pyStrip content == "" then { st with ops := st.ops ++ [Op.skipEmptyOp fp] }
  else
    match embed content with
    | none => { st with ops := st.ops ++ [Op.skipEmbedOp fp] }
    | some v =>
      { st with
        col := upsert fp v content
          { file_path := fp
            file_name := basename fp
            file_ext := splitextExt fp
            indexed_at := clock st.op_c
            file_size := content.length
            file_mtime := fs.mtime fp } st.col
        indexed_c := st.indexed_c + 1
        ops := st.ops ++ [Op.indexOp fp] }

/-- The op recorded for one indexing unit, as a function of the file alone. -/
def indexOpOf (fs : FS) (embed : String → Option (List Rat)) (fp : String) : Op :=
  if pyStrip (fs.content fp) == "" then Op.skipEmptyOp fp
  else
    match embed (fs.content fp) with
    | none => Op.skipEmbedOp fp
    | some _ => Op.indexOp fp

/-- The state after one uncancelled unit of the indexing loop: the unit body,
then `op_c += 1` and the progress callback (main.py 265-266). -/
def nextIndexState (fs : FS) (embed : String → Option (List Rat)) (clock : Nat → Time)
    (total : Nat) (fp : String) (st : SyncState) : SyncState :=
  let st1 := indexStep fs embed clock fp st
  { col := st1.col
    removed_c := st1.removed_c
    indexed_c := st1.indexed_c
    op_c := st1.op_c + 1
    events := st1.events ++ [⟨st1.op_c + 1, total, Phase.indexing⟩]
    ops := st1.ops }

/-- The indexing loop (main.py 256-266). -/
def runIndex (fs : FS) (embed : String → Option (List Rat)) (clock : Nat → Time)
    (cancel : Nat → Bool) (total : Nat) :
    List String → SyncState → SyncState
  | [], st => st
  | fp :: rest, st =>
    if cancel st.op_c then st
    else
      runIndex fs embed clock cancel total rest
        (nextIndexState fs embed clock total fp st)

/-- `p.count(os.path.sep)`: directory depth of a '/'-separated path. -/
def countSep (p : String) : Nat := p.toList.count '/'

/-- The sort key order of `to_index.sort(key=lambda p: (p.count(os.path.sep),
p.lower()))` (main.py 245): directory depth, then lowercased name. -/
def fileOrderB (a b : String) : Bool :=
  decide (countSep a < countSep b) ||
    (decide (countSep a = countSep b) && strLE (pyLower a) (pyLower b))

/-- `fileOrderB` as a relation, for `List.insertionSort`. -/
def fileOrder (a b : String) : Prop := fileOrderB a b = true

instance : DecidableRel fileOrder := fun a b => by
  unfold fileOrder; infer_instance

/-- `(completion_callback)` argument tuple of `auto_index_files`:
`(indexed_c, len(to_index), removed_c, len(to_remove))`. -/
structure Completion where
  indexed_c : Nat
  index_target : Nat
  removed_c : Nat
  remove_target : Nat
deriving DecidableEq, Repr

/-- Everything observable about one `auto_index_files` worker run. -/
structure SyncOutcome where
  toIndexPlan : List String
  toRemovePlan : List String
  finalCol : Collection
  events : List ProgressEvent
  ops : List Op
  opsDone : Nat
  completion : Completion
deriving Repr

/-- `to_index` after `to_index.sort(key=lambda p: (p.count(os.path.sep),
p.lower()))` (main.py 245). -/
def sortedPlan (fs : FS) (col : Collection) (all_files : List String) :
    List String :=
  List.insertionSort fileOrder (get_files_to_index fs col all_files).1

/-- `total_ops = len(to_index) + len(to_remove)` (main.py 246). -/
def totalOps (fs : FS) (col : Collection) (all_files : List String) : Nat :=
  (sortedPlan fs col all_files).length +
    (get_files_to_index fs col all_files).2.length

/-- The worker state after the removal loop and the indexing loop of one pass
(main.py 250-266). -/
def endState (fs : FS) (embed : String → Option (List Rat)) (clock : Nat → Time)
    (cancel : Nat → Bool) (col : Collection) (all_files : List String) :
    SyncState :=
  runIndex fs embed clock cancel (totalOps fs col all_files)
    (sortedPlan fs col all_files)
    (runRemove cancel (totalOps fs col all_files)
      (get_files_to_index fs col all_files).2
      { col := col, removed_c := 0, indexed_c := 0, op_c := 0,
        events := [], ops := [] })

/-- `VectorDatabaseManager.auto_index_files` worker (main.py 241-271): compute
the plan, sort `to_index` by depth then lowercased name, process removals then
indexing with a cancellation check before each unit, and report completion
counts (`completion_callback(0, 0, 0, 0)` on an empty plan). -/
def auto_index_files (fs : FS) (embed : String → Option (List Rat))
    (clock : Nat → Time) (cancel : Nat → Bool) (col : Collection)
    (all_files : List String) : SyncOutcome :=
  if totalOps fs col all_files = 0 then
    { toIndexPlan := sortedPlan fs col all_files
      toRemovePlan := (get_files_to_index fs col all_files).2
      finalCol := col
      events := []
      ops := []
      opsDone := 0
      completion := ⟨0, 0, 0, 0⟩ }
  else
    { toIndexPlan := sortedPlan fs col all_files
      toRemovePlan := (get_files_to_index fs col all_files).2
      finalCol := (endState fs embed clock cancel col all_files).col
      events := (endState fs embed clock cancel col all_files).events
      ops := (endState fs embed clock cancel col all_files).ops
      opsDone := (endState fs embed clock cancel col all_files).op_c
      completion := ⟨(endState fs embed clock cancel col all_files).indexed_c,
        (sortedPlan fs col all_files).length,
        (endState fs embed clock cancel col all_files).removed_c,
        (get_files_to_index fs col all_files).2.length⟩ }

/-- The similarity displayed for a search result (main.py 597):
`max(0.0, 1.0 - (distance / 2.0))`. -/
def display_similarity (distance : Rat) : Rat := max 0 (1 - distance / 2)

/-- Modelled from the spec: `similarity = clamp(1 - distance/2, 0, 1)` (spec
section 3, SearchResult), for comparison with `display_similarity`. -/
def spec_similarity (distance : Rat) : Rat := min 1 (max 0 (1 - distance / 2))

/-- One `(metadata, document, distance)` triple returned by the store query
(`zip(metadatas, documents, distances)`, each component `Optional`). -/
structure QueryTriple where
  metadata : Option Metadata
  document : Option String
  distance : Option Rat
deriving DecidableEq, Repr

/-- One element of the list `search_similar_files` returns. -/
structure SearchResultR where
  file_path : String
  content : String
  distance : Rat
deriving DecidableEq, Repr

/-- `VectorDatabaseManager.search_similar_files` (main.py 224-239).  The guard
`if m and d and dist and "file_path" in m and isinstance(m["file_path"], str)`
is Python truthiness: a present metadata dict is truthy (it always has keys in
the model), a document is truthy iff non-empty, and a distance is truthy iff
non-zero. -/
def search_similar_files (collection_present ollama_available : Bool)
    (embed : String → Option (List Rat))
    (storeQuery : List Rat → Nat → List QueryTriple)
    (query : String) (n_results : Nat) : List SearchResultR :=
  if !collection_present || !ollama_available then []
  else
    match embed query with
    | none => []
    | some q_embed =>
      (storeQuery q_embed n_results).filterMap (fun t =>
        match t.metadata, t.document, t.distance with
        | some m, some d, some dist =>
          if !(d == "") && !(dist == (0 : Rat)) then
            some { file_path := m.file_path, content := d, distance := dist }
          else none
        | _, _, _ => none)

/-- main.py line 43. -/
def OLLAMA_BASE_URL : String := "http://localhost:11434"

/-- main.py line 44. -/
def OLLAMA_ALTERNATIVE_URL : String := "http://192.168.1.100:11434"

/-- `is_on_metered_network` (main.py 71-72): the shipped probe is the constant
False.  `NetEnv.metered` below models the value this probe reports, so that
the failover policy of `find_and_set_active_host` can be stated as a function
of the network state the probe observes. -/
def is_on_metered_network : Bool := false

/-- main.py line 120. -/
def metered_error_msg : String :=
  "Primary Ollama unreachable; cannot try alternative on metered network."

/-- main.py line 128. -/
def no_host_error_msg : String := "No reachable Ollama instance found."

/-- Network probes `find_and_set_active_host` can issue. -/
inductive Probe
  | primaryVersion
  | primaryPs
  | altVersion
deriving DecidableEq, Repr

/-- The network environment observed by the probes: whether `GET /api/version`
on the primary returns 200, whether `_host_has_gpu` reports vram on the
primary, what the metered-network probe reports, and whether the alternative
host's version probe returns 200. -/
structure NetEnv where
  primaryOk : Bool
  primaryGpu : Bool
  metered : Bool
  altOk : Bool
deriving DecidableEq, Repr

/-- The fall-through of `find_and_set_active_host` after the primary was not
accepted (main.py 119-128): refuse failover on a metered network, else probe
the alternative host. -/
def try_alternative (env : NetEnv) (probes : List Probe) :
    (Option String × Option String) × List Probe :=
  if env.metered then ((none, some metered_error_msg), probes)
  else if env.altOk then
    ((some OLLAMA_ALTERNATIVE_URL, none), probes ++ [Probe.altVersion])
  else ((none, some no_host_error_msg), probes ++ [Probe.altVersion])

/-- `VectorDatabaseManager.find_and_set_active_host` (main.py 110-128),
returning the `(host, error)` pair and the list of probes issued.  When the
primary version probe succeeds, `_host_has_gpu` is always evaluated first
(left operand of `or`). -/
def find_and_set_active_host (env : NetEnv) (for_auto_indexing : Bool) :
    (Option String × Option String) × List Probe :=
  if env.primaryOk then
    if env.primaryGpu || !for_auto_indexing then
      ((some OLLAMA_BASE_URL, none), [Probe.primaryVersion, Probe.primaryPs])
    else try_alternative env [Probe.primaryVersion, Probe.primaryPs]
  else try_alternative env [Probe.primaryVersion]

/-- One directory entry met by the scan: its project-relative path, whether
opening/reading it succeeds, and the first 1KB of its bytes. -/
structure DirEntry where
  relPath : String
  readable : Bool
  head1024 : List UInt8
deriving DecidableEq, Repr

/-- `is_text_file` (main.py 279-282): no NUL byte in the first 1KB; an
`IOError`/`PermissionError` yields False. -/
def is_text_file (e : DirEntry) : Bool :=
  if e.readable then !(e.head1024.contains 0) else false

/-- `is_includable_file` (main.py 284-286): raster images are includable
without a content sniff; anything else must pass `is_text_file`. -/
def is_includable_file (e : DirEntry) : Bool :=
  if IMAGE_EXTS.contains (extLower e.relPath) then true else is_text_file e

/-- Case-insensitive order used by `sorted(all_files_list, key=str.lower)`. -/
def lowerB (a b : String) : Bool := strLE (pyLower a) (pyLower b)

/-- `lowerB` as a relation. -/
def lowerOrd (a b : String) : Prop := lowerB a b = true

instance : DecidableRel lowerOrd := fun a b => by
  unfold lowerOrd; infer_instance

/-- `FileCopierApp._scan_and_cache_all_files` (main.py 744-754): collect the
relative paths of the walked entries that are not excluded and includable, then
sort case-insensitively.  `excluded` models `regex.search(rel_path)`; the walk
itself is modelled by the entry list.  An entry whose read fails is merely not
includable (unless its extension is a raster image, which is never opened). -/
def scan_and_cache_all_files (excluded : String → Bool) (entries : List DirEntry) :
    List String :=
  List.insertionSort lowerOrd
    ((entries.filter (fun e => !excluded e.relPath && is_includable_file e)).map
      (fun e => e.relPath))

/-! Concrete fixtures used by counterexamples and witnesses. -/

/-- A filesystem with one python file. -/
def fsW : FS :=
  { onDisk := fun p => p == "a.py", mtime := fun _ => 10, content := fun _ => "print" }

/-- An embedding oracle that always succeeds. -/
def embedW : String → Option (List Rat) := fun _ => some [1]

/-- A clock frozen at 1000. -/
def clockW : Nat → Time := fun _ => 1000

/-- A never-signalled stop event. -/
def noCancel : Nat → Bool := fun _ => false

/-- Index entry for `a.py` written at wall time 150 when the file's mtime was
100: the `file_mtime`/`indexed_at` distinction C1 turns on. -/
def metaC1 : Metadata :=
  { file_path := "a.py", file_name := "a.py", file_ext := ".py",
    indexed_at := 150, file_size := 5, file_mtime := 100 }

/-- A collection holding exactly `metaC1`. -/
def colC1 : Collection := [{ embedding := [1], document := "print", metadata := metaC1 }]

/-- The C1 filesystem: `a.py` exists with mtime 130 (newer than the recorded
`file_mtime` 100, older than the recorded `indexed_at` 150). -/
def fsC1 : FS :=
  { onDisk := fun p => p == "a.py", mtime := fun _ => 130, content := fun _ => "print" }

/-- The C1-witness filesystem: `a.py` exists with mtime 200, newer than the
recorded `indexed_at` 150 of `metaC1`. -/
def fsC1b : FS :=
  { onDisk := fun p => p == "a.py", mtime := fun _ => 200, content := fun _ => "print" }

/-- The C2 filesystem: `e.txt` exists but its content is empty. -/
def fsC2 : FS :=
  { onDisk := fun p => p == "e.txt", mtime := fun _ => 10, content := fun _ => "" }

/-- Metadata of the nearest (distance 0) stored neighbor for C5. -/
def metaC5a : Metadata :=
  { file_path := "exact.py", file_name := "exact.py", file_ext := ".py",
    indexed_at := 1, file_size := 6, file_mtime := 1 }

/-- Metadata of the farther (distance 1) stored neighbor for C5. -/
def metaC5b : Metadata :=
  { file_path := "other.py", file_name := "other.py", file_ext := ".py",
    indexed_at := 1, file_size := 6, file_mtime := 1 }

/-- A store query response whose nearest neighbor has distance exactly 0. -/
def storeQueryC5 : List Rat → Nat → List QueryTriple := fun _ _ =>
  [ { metadata := some metaC5a, document := some "exact match", distance := some 0 },
    { metadata := some metaC5b, document := some "other text", distance := some 1 } ]

/-- Index entry for a file that was deleted from disk (C3). -/
def metaC3 : Metadata :=
  { file_path := "gone.txt", file_name := "gone.txt", file_ext := ".txt",
    indexed_at := 50, file_size := 1, file_mtime := 40 }

/-- A collection holding exactly the deleted file's entry. -/
def colC3 : Collection := [{ embedding := [1], document := "x", metadata := metaC3 }]

/-- A filesystem on which nothing exists (the indexed file was deleted). -/
def fsC3 : FS :=
  { onDisk := fun _ => false, mtime := fun _ => 0, content := fun _ => "" }

/-- An unreadable non-image directory entry (C9). -/
def entryC9 : DirEntry := { relPath := "a.txt", readable := false, head1024 := [] }

/-- A directory listing with one readable text file and one unreadable file. -/
def entriesC9 : List DirEntry :=
  [ { relPath := "B.txt", readable := true, head1024 := [65] }, entryC9 ]

/-! Helper lemmas: last-match lookups, dict keys, upsert/delete. -/

theorem lastMatch_eq_none_iff (q : α → Bool) (l : List α) :
    lastMatch q l = none ↔ ∀ x ∈ l, q x = false := by
  induction l with
  | nil => simp [lastMatch]
  | cons x xs ih =>
    simp only [lastMatch]
    cases h : lastMatch q xs with
    | some y =>
      simp only [reduceCtorEq, false_iff]
      intro hall
      have : lastMatch q xs = none := (ih).mpr (fun z hz => hall z (List.mem_cons_of_mem _ hz))
      rw [h] at this; exact Option.noConfusion this
    | none =>
      have hxs := ih.mp h
      constructor
      · intro hif z hz
        rcases List.mem_cons.mp hz with rfl | hz2
        · by_contra hq
          have : q z = true := Bool.of_not_eq_false hq
          rw [this] at hif; exact Option.noConfusion (hif)
        · exact hxs z hz2
      · intro hall
        have : q x = false := hall x (List.mem_cons_self _ _)
        simp [this]

theorem lastMatch_eq_some (q : α → Bool) (l : List α) (x : α)
    (h : lastMatch q l = some x) : x ∈ l ∧ q x = true := by
  induction l with
  | nil => simp [lastMatch] at h
  | cons y ys ih =>
    simp only [lastMatch] at h
    cases h2 : lastMatch q ys with
    | some z =>
      rw [h2] at h
      obtain rfl : z = x := by injection h
      have := ih h2
      exact ⟨List.mem_cons_of_mem _ this.1, this.2⟩
    | none =>
      rw [h2] at h
      by_cases hq : q y = true
      · rw [if_pos hq] at h
        obtain rfl : y = x := by injection h
        exact ⟨List.mem_cons_self _ _, hq⟩
      · rw [if_neg (by simpa using hq)] at h
        exact Option.noConfusion h

theorem lastMatch_map (q : β → Bool) (f : α → β) (l : List α) :
    lastMatch q (l.map f) = (lastMatch (fun a => q (f a)) l).map f := by
  induction l with
  | nil => simp [lastMatch]
  | cons x xs ih =>
    simp only [List.map_cons, lastMatch, ih]
    cases lastMatch (fun a => q (f a)) xs with
    | some y => simp
    | none =>
      by_cases h : q (f x) = true
      · simp [h]
      · simp [Bool.eq_false_iff.mpr (by simpa using h), h]

theorem lastMatch_filter (q s : α → Bool) (l : List α) :
    lastMatch q (l.filter s) = lastMatch (fun x => s x && q x) l := by
  induction l with
  | nil => simp [lastMatch]
  | cons x xs ih =>
    by_cases hs : s x = true
    · rw [List.filter_cons_of_pos hs]
      simp only [lastMatch, ih, hs, Bool.true_and]
    · rw [List.filter_cons_of_neg (by simpa using hs)]
      simp only [lastMatch, ih]
      cases lastMatch (fun x => s x && q x) xs with
      | some y => rfl
      | none => simp [Bool.eq_false_iff.mpr (by simpa using hs)]

theorem lastMatch_congr {q₁ q₂ : α → Bool} (h : ∀ x, q₁ x = q₂ x) (l : List α) :
    lastMatch q₁ l = lastMatch q₂ l := by
  induction l with
  | nil => rfl
  | cons x xs ih => simp only [lastMatch, ih, h x]

theorem lastMatch_append (q : α → Bool) (l₁ l₂ : List α) :
    lastMatch q (l₁ ++ l₂) =
      match lastMatch q l₂ with
      | some y => some y
      | none => lastMatch q l₁ := by
  induction l₁ with
  | nil =>
    simp only [List.nil_append, lastMatch]
    cases lastMatch q l₂ <;> rfl
  | cons x xs ih =>
    have hcons : lastMatch q ((x :: xs) ++ l₂) =
        match lastMatch q (xs ++ l₂) with
        | some y => some y
        | none => if q x then some x else none := rfl
    have hcons2 : lastMatch q (x :: xs) =
        match lastMatch q xs with
        | some y => some y
        | none => if q x then some x else none := rfl
    rw [hcons, ih, hcons2]
    cases lastMatch q l₂ <;> cases lastMatch q xs <;> rfl

theorem lastMatch_ne_none_iff (q : α → Bool) (l : List α) :
    lastMatch q l ≠ none ↔ ∃ x ∈ l, q x = true := by
  constructor
  · intro h
    cases hm : lastMatch q l with
    | none => exact absurd hm h
    | some x =>
      have := lastMatch_eq_some q l x hm
      exact ⟨x, this.1, this.2⟩
  · rintro ⟨x, hx, hq⟩ hnone
    have := (lastMatch_eq_none_iff q l).mp hnone x hx
    rw [hq] at this; exact Bool.noConfusion this

theorem lookupEntry_ne_none_iff (col : Collection) (p : String) :
    lookupEntry col p ≠ none ↔ ∃ r ∈ col, r.metadata.file_path = p := by
  unfold lookupEntry
  rw [lastMatch_ne_none_iff]
  constructor
  · rintro ⟨r, hr, hq⟩; exact ⟨r, hr, by simpa using hq⟩
  · rintro ⟨r, hr, hq⟩; exact ⟨r, hr, by simpa using hq⟩

theorem dictLookup_get_indexed_files (col : Collection) (p : String) :
    dictLookup (get_indexed_files col) p =
      (lookupEntry col p).map (fun r => r.metadata.indexed_at) := by
  unfold dictLookup get_indexed_files lookupEntry
  rw [lastMatch_map]
  cases lastMatch (fun r : StoreRecord => r.metadata.file_path == p) col <;> rfl

theorem lookupEntry_deleteId_self (col : Collection) (p : String) :
    lookupEntry (deleteId p col) p = none := by
  unfold lookupEntry deleteId
  rw [lastMatch_filter, lastMatch_eq_none_iff]
  intro r _
  by_cases h : r.metadata.file_path = p <;> simp [h]

theorem lookupEntry_deleteId_ne (col : Collection) (p q : String) (h : q ≠ p) :
    lookupEntry (deleteId p col) q = lookupEntry col q := by
  unfold lookupEntry deleteId
  rw [lastMatch_filter]
  apply lastMatch_congr
  intro r
  by_cases hr : r.metadata.file_path = q
  · simp [hr, h]
  · simp [hr]

theorem lookupEntry_upsert_self (col : Collection) (p : String) (v : List Rat)
    (doc : String) (meta : Metadata) (hm : meta.file_path = p) :
    lookupEntry (upsert p v doc meta col) p =
      some { embedding := v, document := doc, metadata := meta } := by
  unfold lookupEntry upsert
  rw [lastMatch_append]
  simp [lastMatch, hm]

theorem lookupEntry_upsert_ne (col : Collection) (p q : String) (v : List Rat)
    (doc : String) (meta : Metadata) (hm : meta.file_path = p) (h : q ≠ p) :
    lookupEntry (upsert p v doc meta col) q = lookupEntry col q := by
  unfold lookupEntry upsert
  rw [lastMatch_append]
  have : lastMatch (fun r : StoreRecord => r.metadata.file_path == q)
      [{ embedding := v, document := doc, metadata := meta }] = none := by
    simp [lastMatch, hm, Ne.symm h]
  rw [this]
  rw [lastMatch_filter]
  apply lastMatch_congr
  intro r
  by_cases hr : r.metadata.file_path = q
  · simp [hr, h]
  · simp [hr]

theorem mem_dedupFirstAux (seen l : List String) (x : String) :
    x ∈ dedupFirstAux seen l ↔ x ∈ l ∧ x ∉ seen := by
  induction l generalizing seen with
  | nil => simp [dedupFirstAux]
  | cons y ys ih =>
    unfold dedupFirstAux
    by_cases hy : y ∈ seen
    · rw [if_pos hy, ih]
      constructor
      · rintro ⟨h1, h2⟩; exact ⟨List.mem_cons_of_mem _ h1, h2⟩
      · rintro ⟨h1, h2⟩
        rcases List.mem_cons.mp h1 with rfl | h1
        · exact absurd hy h2
        · exact ⟨h1, h2⟩
    · rw [if_neg hy]
      constructor
      · intro h
        rcases List.mem_cons.mp h with rfl | h
        · exact ⟨List.mem_cons_self _ _, hy⟩
        · have := (ih (y :: seen)).mp h
          exact ⟨List.mem_cons_of_mem _ this.1,
            fun hx => this.2 (List.mem_cons_of_mem _ hx)⟩
      · rintro ⟨h1, h2⟩
        rcases List.mem_cons.mp h1 with rfl | h1
        · exact List.mem_cons_self _ _
        · by_cases hxy : x = y
          · subst hxy; exact List.mem_cons_self _ _
          · exact List.mem_cons_of_mem _ ((ih (y :: seen)).mpr
              ⟨h1, fun hx => (List.mem_cons.mp hx).elim (fun h => hxy h) h2⟩)

theorem nodup_dedupFirstAux (seen l : List String) :
    (dedupFirstAux seen l).Nodup := by
  induction l generalizing seen with
  | nil => simp [dedupFirstAux]
  | cons y ys ih =>
    unfold dedupFirstAux
    by_cases hy : y ∈ seen
    · rw [if_pos hy]; exact ih seen
    · rw [if_neg hy]
      refine List.nodup_cons.mpr ⟨?_, ih (y :: seen)⟩
      intro hmem
      exact ((mem_dedupFirstAux (y :: seen) ys y).mp hmem).2 (List.mem_cons_self _ _)

theorem mem_dictKeys_iff (col : Collection) (p : String) :
    p ∈ dictKeys (get_indexed_files col) ↔ lookupEntry col p ≠ none := by
  unfold dictKeys get_indexed_files
  rw [mem_dedupFirstAux, lookupEntry_ne_none_iff]
  simp [List.map_map, Function.comp]

theorem lookupEntry_foldl_delete (l : List String) (col : Collection) (p : String) :
    lookupEntry (l.foldl (fun c q => deleteId q c) col) p =
      if p ∈ l then none else lookupEntry col p := by
  induction l generalizing col with
  | nil => simp
  | cons q qs ih =>
    simp only [List.foldl_cons, ih]
    by_cases hmem : p ∈ qs
    · simp [hmem, List.mem_cons]
    · by_cases hpq : p = q
      · subst hpq
        simp [hmem, lookupEntry_deleteId_self]
      · simp [hmem, hpq, lookupEntry_deleteId_ne col q p hpq, List.mem_cons]

theorem filter_eq_singleton_of_nodup (l : List String) (q : String → Bool)
    (p : String) (hnd : l.Nodup) (hp : p ∈ l) (hq : q p = true)
    (hother : ∀ x ∈ l, x ≠ p → q x = false) : l.filter q = [p] := by
  induction l with
  | nil => simp at hp
  | cons y ys ih =>
    rcases List.mem_cons.mp hp with rfl | hp2
    · rw [List.filter_cons_of_pos hq]
      have : ys.filter q = [] := by
        rw [List.filter_eq_nil_iff]
        intro x hx
        have hxp : x ≠ p := by
          rintro rfl
          exact (List.nodup_cons.mp hnd).1 hx
        simp [hother x (List.mem_cons_of_mem _ hx) hxp]
      rw [this]
    · have hyp : y ≠ p := by
        rintro rfl
        exact (List.nodup_cons.mp hnd).1 hp2
      rw [List.filter_cons_of_neg (by simp [hother y (List.mem_cons_self _ _) hyp])]
      exact ih (List.nodup_cons.mp hnd).2 hp2
        (fun x hx hxp => hother x (List.mem_cons_of_mem _ hx) hxp)

/-! Helper lemmas: the sort-key orders are total preorders. -/

theorem charListLE_total : ∀ x y : List Char, charListLE x y = true ∨ charListLE y x = true := by
  intro x
  induction x with
  | nil => intro y; left; rfl
  | cons a as ih =>
    intro y
    cases y with
    | nil => right; rfl
    | cons b bs =>
      simp only [charListLE]
      rcases Nat.lt_trichotomy a.toNat b.toNat with h | h | h
      · left; rw [if_pos h]
      · rw [if_neg (by omega), if_neg (by omega), if_neg (by omega), if_neg (by omega)]
        exact ih bs
      · right; rw [if_pos h]

theorem charListLE_trans : ∀ x y z : List Char,
    charListLE x y = true → charListLE y z = true → charListLE x z = true := by
  intro x
  induction x with
  | nil => intro y z _ _; rfl
  | cons a as ih =>
    intro y z hxy hyz
    cases y with
    | nil => simp [charListLE] at hxy
    | cons b bs =>
      cases z with
      | nil => simp [charListLE] at hyz
      | cons c cs =>
        simp only [charListLE] at hxy hyz ⊢
        rcases Nat.lt_trichotomy a.toNat b.toNat with hab | hab | hab
        · rcases Nat.lt_trichotomy b.toNat c.toNat with hbc | hbc | hbc
          · rw [if_pos (by omega)]
          · rw [if_pos (by omega)]
          · rw [if_neg (by omega), if_pos hbc] at hyz
            exact Bool.noConfusion hyz
        · rcases Nat.lt_trichotomy b.toNat c.toNat with hbc | hbc | hbc
          · rw [if_pos (by omega)]
          · rw [if_neg (by omega), if_neg (by omega)]
            rw [if_neg (by omega), if_neg (by omega)] at hxy
            rw [if_neg (by omega), if_neg (by omega)] at hyz
            exact ih bs cs hxy hyz
          · rw [if_neg (by omega), if_pos hbc] at hyz
            exact Bool.noConfusion hyz
        · rw [if_neg (by omega), if_pos hab] at hxy
          exact Bool.noConfusion hxy

theorem fileOrder_total : ∀ a b : String, fileOrder a b ∨ fileOrder b a := by
  intro a b
  unfold fileOrder fileOrderB
  rcases Nat.lt_trichotomy (countSep a) (countSep b) with h | h | h
  · left; simp [h]
  · rcases charListLE_total (pyLower a).toList (pyLower b).toList with hs | hs
    · left
      have hst : strLE (pyLower a) (pyLower b) = true := hs
      simp [h, hst]
    · right
      have hst : strLE (pyLower b) (pyLower a) = true := hs
      simp [h, hst]
  · right; simp [h]

theorem fileOrder_trans : ∀ a b c : String, fileOrder a b → fileOrder b c → fileOrder a c := by
  intro a b c hab hbc
  unfold fileOrder fileOrderB at hab hbc ⊢
  simp only [Bool.or_eq_true, Bool.and_eq_true, decide_eq_true_eq] at hab hbc ⊢
  rcases hab with h1 | ⟨h1, h1s⟩ <;> rcases hbc with h2 | ⟨h2, h2s⟩
  · left; omega
  · left; omega
  · left; omega
  · right
    refine ⟨by omega, ?_⟩
    exact charListLE_trans _ _ _ h1s h2s

theorem lowerOrd_total : ∀ a b : String, lowerOrd a b ∨ lowerOrd b a := by
  intro a b
  unfold lowerOrd lowerB strLE
  exact charListLE_total _ _

theorem lowerOrd_trans : ∀ a b c : String, lowerOrd a b → lowerOrd b c → lowerOrd a c := by
  intro a b c hab hbc
  unfold lowerOrd lowerB strLE at hab hbc ⊢
  exact charListLE_trans _ _ _ hab hbc

/-! Helper lemmas: one indexing unit. -/

theorem indexStep_op_c (fs : FS) (embed : String → Option (List Rat))
    (clock : Nat → Time) (fp : String) (st : SyncState) :
    (indexStep fs embed clock fp st).op_c = st.op_c := by
  unfold indexStep
  cases h : pyStrip (fs.content fp) == ""
  · cases he : embed (fs.content fp) <;> simp [h, he]
  · simp [h]

theorem indexStep_events (fs : FS) (embed : String → Option (List Rat))
    (clock : Nat → Time) (fp : String) (st : SyncState) :
    (indexStep fs embed clock fp st).events = st.events := by
  unfold indexStep
  cases h : pyStrip (fs.content fp) == ""
  · cases he : embed (fs.content fp) <;> simp [h, he]
  · simp [h]

theorem indexStep_removed_c (fs : FS) (embed : String → Option (List Rat))
    (clock : Nat → Time) (fp : String) (st : SyncState) :
    (indexStep fs embed clock fp st).removed_c = st.removed_c := by
  unfold indexStep
  cases h : pyStrip (fs.content fp) == ""
  · cases he : embed (fs.content fp) <;> simp [h, he]
  · simp [h]

theorem indexStep_ops (fs : FS) (embed : String → Option (List Rat))
    (clock : Nat → Time) (fp : String) (st : SyncState) :
    (indexStep fs embed clock fp st).ops = st.ops ++ [indexOpOf fs embed fp] := by
  unfold indexStep indexOpOf
  cases h : pyStrip (fs.content fp) == ""
  · cases he : embed (fs.content fp) <;> simp [h, he]
  · simp [h]

theorem indexStep_indexed_c_le (fs : FS) (embed : String → Option (List Rat))
    (clock : Nat → Time) (fp : String) (st : SyncState) :
    (indexStep fs embed clock fp st).indexed_c ≤ st.indexed_c + 1 := by
  unfold indexStep
  cases h : pyStrip (fs.content fp) == ""
  · cases he : embed (fs.content fp) <;> simp [h, he]
  · simp [h]

theorem indexStep_col_ne (fs : FS) (embed : String → Option (List Rat))
    (clock : Nat → Time) (fp : String) (st : SyncState) (p : String) (h : p ≠ fp) :
    lookupEntry (indexStep fs embed clock fp st).col p = lookupEntry st.col p := by
  unfold indexStep
  cases hs : pyStrip (fs.content fp) == ""
  · cases he : embed (fs.content fp) with
    | none => simp [hs, he]
    | some v =>
      simp only [hs, he, Bool.false_eq_true, if_false]
      exact lookupEntry_upsert_ne st.col fp p v (fs.content fp) _ rfl h
  · simp [hs]

theorem indexStep_col_some (fs : FS) (embed : String → Option (List Rat))
    (clock : Nat → Time) (fp : String) (st : SyncState) (p : String)
    (h : lookupEntry st.col p ≠ none) :
    lookupEntry (indexStep fs embed clock fp st).col p ≠ none := by
  unfold indexStep
  cases hs : pyStrip (fs.content fp) == ""
  · cases he : embed (fs.content fp) with
    | none => simpa [hs, he] using h
    | some v =>
      simp only [hs, he, Bool.false_eq_true, if_false]
      by_cases hp : p = fp
      · subst hp
        rw [lookupEntry_upsert_self st.col p v (fs.content p) _ rfl]
        exact Option.noConfusion
      · rw [lookupEntry_upsert_ne st.col fp p v (fs.content fp) _ rfl hp]
        exact h
  · simpa [hs] using h

theorem indexStep_col_success (fs : FS) (embed : String → Option (List Rat))
    (clock : Nat → Time) (fp : String) (st : SyncState) (v : List Rat)
    (h1 : (pyStrip (fs.content fp) == "") = false)
    (h2 : embed (fs.content fp) = some v) :
    lookupEntry (indexStep fs embed clock fp st).col fp =
      some { embedding := v
             document := fs.content fp
             metadata := { file_path := fp
                           file_name := basename fp
                           file_ext := splitextExt fp
                           indexed_at := clock st.op_c
                           file_size := (fs.content fp).length
                           file_mtime := fs.mtime fp } } := by
  unfold indexStep
  simp only [h1, h2, Bool.false_eq_true, if_false]
  exact lookupEntry_upsert_self st.col fp v (fs.content fp) _ rfl

theorem indexStep_col_no_index (fs : FS) (embed : String → Option (List Rat))
    (clock : Nat → Time) (fp : String) (st : SyncState)
    (h : indexOpOf fs embed fp ≠ Op.indexOp fp) :
    (indexStep fs embed clock fp st).col = st.col := by
  unfold indexStep
  unfold indexOpOf at h
  cases hs : pyStrip (fs.content fp) == ""
  · cases he : embed (fs.content fp) with
    | none => simp [hs, he]
    | some v => rw [hs, he] at h; simp at h
  · simp [hs]

theorem nextIndexState_col (fs : FS) (embed : String → Option (List Rat))
    (clock : Nat → Time) (total : Nat) (fp : String) (st : SyncState) :
    (nextIndexState fs embed clock total fp st).col =
      (indexStep fs embed clock fp st).col := rfl

theorem nextIndexState_removed_c (fs : FS) (embed : String → Option (List Rat))
    (clock : Nat → Time) (total : Nat) (fp : String) (st : SyncState) :
    (nextIndexState fs embed clock total fp st).removed_c = st.removed_c := by
  show (indexStep fs embed clock fp st).removed_c = st.removed_c
  exact indexStep_removed_c fs embed clock fp st

theorem nextIndexState_indexed_c_le (fs : FS) (embed : String → Option (List Rat))
    (clock : Nat → Time) (total : Nat) (fp : String) (st : SyncState) :
    (nextIndexState fs embed clock total fp st).indexed_c ≤ st.indexed_c + 1 := by
  show (indexStep fs embed clock fp st).indexed_c ≤ st.indexed_c + 1
  exact indexStep_indexed_c_le fs embed clock fp st

theorem nextIndexState_op_c (fs : FS) (embed : String → Option (List Rat))
    (clock : Nat → Time) (total : Nat) (fp : String) (st : SyncState) :
    (nextIndexState fs embed clock total fp st).op_c = st.op_c + 1 := by
  show (indexStep fs embed clock fp st).op_c + 1 = st.op_c + 1
  rw [indexStep_op_c]

theorem nextIndexState_events (fs : FS) (embed : String → Option (List Rat))
    (clock : Nat → Time) (total : Nat) (fp : String) (st : SyncState) :
    (nextIndexState fs embed clock total fp st).events =
      st.events ++ [⟨st.op_c + 1, total, Phase.indexing⟩] := by
  show (indexStep fs embed clock fp st).events ++
      [(⟨(indexStep fs embed clock fp st).op_c + 1, total, Phase.indexing⟩ :
        ProgressEvent)] =
    st.events ++ [⟨st.op_c + 1, total, Phase.indexing⟩]
  rw [indexStep_events, indexStep_op_c]

theorem nextIndexState_ops (fs : FS) (embed : String → Option (List Rat))
    (clock : Nat → Time) (total : Nat) (fp : String) (st : SyncState) :
    (nextIndexState fs embed clock total fp st).ops =
      st.ops ++ [indexOpOf fs embed fp] := by
  show (indexStep fs embed clock fp st).ops = st.ops ++ [indexOpOf fs embed fp]
  exact indexStep_ops fs embed clock fp st

/-! Helper lemmas: the removal loop. -/

theorem runRemove_spec (cancel : Nat → Bool) (total : Nat) :
    ∀ (l : List String) (st : SyncState),
      ∃ pre suf, l = pre ++ suf ∧
        (runRemove cancel total l st).col =
          pre.foldl (fun c q => deleteId q c) st.col ∧
        (runRemove cancel total l st).removed_c = st.removed_c + pre.length ∧
        (runRemove cancel total l st).indexed_c = st.indexed_c ∧
        (runRemove cancel total l st).op_c = st.op_c + pre.length ∧
        (runRemove cancel total l st).ops = st.ops ++ pre.map Op.removeOp ∧
        (∀ e ∈ (runRemove cancel total l st).events,
          e ∈ st.events ∨
            (e.total = total ∧ e.completed ≤ st.op_c + pre.length ∧
              e.phase = Phase.removing)) ∧
        (suf ≠ [] → cancel (st.op_c + pre.length) = true) := by
  intro l
  induction l with
  | nil =>
    intro st
    exact ⟨[], [], rfl, rfl, rfl, rfl, rfl,
      by show st.ops = st.ops ++ List.map Op.removeOp []; simp,
      fun e he => Or.inl he, fun h => absurd rfl h⟩
  | cons fp rest ih =>
    intro st
    have hr : runRemove cancel total (fp :: rest) st =
        if cancel st.op_c then st
        else runRemove cancel total rest
          { col := deleteId fp st.col
            removed_c := st.removed_c + 1
            indexed_c := st.indexed_c
            op_c := st.op_c + 1
            events := st.events ++ [⟨st.op_c + 1, total, Phase.removing⟩]
            ops := st.ops ++ [Op.removeOp fp] } := rfl
    by_cases hc : cancel st.op_c = true
    · rw [hr, if_pos hc]
      exact ⟨[], fp :: rest, rfl, rfl, by simp, rfl, by simp, by simp,
        fun e he => Or.inl he, fun _ => by simpa using hc⟩
    · rw [hr, if_neg hc]
      obtain ⟨pre', suf', hsplit, hcol, hrc, hic, hopc, hops, hev, hcan⟩ :=
        ih { col := deleteId fp st.col
             removed_c := st.removed_c + 1
             indexed_c := st.indexed_c
             op_c := st.op_c + 1
             events := st.events ++ [⟨st.op_c + 1, total, Phase.removing⟩]
             ops := st.ops ++ [Op.removeOp fp] }
      have harith : st.op_c + 1 + pre'.length = st.op_c + (fp :: pre').length := by
        simp only [List.length_cons]; omega
      refine ⟨fp :: pre', suf', by rw [List.cons_append, hsplit], ?_, ?_, ?_, ?_, ?_, ?_, ?_⟩
      · rw [hcol]; rw [List.foldl_cons]
      · rw [hrc]
        show st.removed_c + 1 + pre'.length = st.removed_c + (fp :: pre').length
        simp only [List.length_cons]; omega
      · rw [hic]
      · rw [hopc]
        show st.op_c + 1 + pre'.length = st.op_c + (fp :: pre').length
        exact harith
      · rw [hops]
        show (st.ops ++ [Op.removeOp fp]) ++ List.map Op.removeOp pre' =
          st.ops ++ List.map Op.removeOp (fp :: pre')
        simp
      · intro e he
        rcases hev e he with h1 | ⟨h2, h3, h4⟩
        · have h1' : e ∈ st.events ++ [(⟨st.op_c + 1, total, Phase.removing⟩ : ProgressEvent)] := h1
          rcases List.mem_append.mp h1' with h5 | h5
          · exact Or.inl h5
          · right
            have he5 : e = ⟨st.op_c + 1, total, Phase.removing⟩ := by
              simpa using h5
            subst he5
            refine ⟨rfl, ?_, rfl⟩
            show st.op_c + 1 ≤ st.op_c + (fp :: pre').length
            simp only [List.length_cons]; omega
        · right
          refine ⟨h2, ?_, h4⟩
          have h3' : e.completed ≤ st.op_c + 1 + pre'.length := h3
          simp only [List.length_cons]
          omega
      · intro h
        have hc2 := hcan h
        have hc3 : cancel (st.op_c + 1 + pre'.length) = true := hc2
        rwa [harith] at hc3

/-! Helper lemmas: the indexing loop. -/

theorem runIndex_spec (fs : FS) (embed : String → Option (List Rat))
    (clock : Nat → Time) (cancel : Nat → Bool) (total : Nat) :
    ∀ (l : List String) (st : SyncState),
      ∃ pre suf, l = pre ++ suf ∧
        (runIndex fs embed clock cancel total l st).removed_c = st.removed_c ∧
        (runIndex fs embed clock cancel total l st).indexed_c ≤
          st.indexed_c + pre.length ∧
        (runIndex fs embed clock cancel total l st).op_c = st.op_c + pre.length ∧
        (runIndex fs embed clock cancel total l st).ops =
          st.ops ++ pre.map (indexOpOf fs embed) ∧
        (∀ e ∈ (runIndex fs embed clock cancel total l st).events,
          e ∈ st.events ∨
            (e.total = total ∧ e.completed ≤ st.op_c + pre.length ∧
              e.phase = Phase.indexing)) ∧
        (suf ≠ [] → cancel (st.op_c + pre.length) = true) := by
  intro l
  induction l with
  | nil =>
    intro st
    exact ⟨[], [], rfl, rfl, le_refl _, rfl,
      by show st.ops = st.ops ++ List.map (indexOpOf fs embed) []; simp,
      fun e he => Or.inl he, fun h => absurd rfl h⟩
  | cons fp rest ih =>
    intro st
    have hr : runIndex fs embed clock cancel total (fp :: rest) st =
        if cancel st.op_c then st
        else runIndex fs embed clock cancel total rest
          (nextIndexState fs embed clock total fp st) := rfl
    by_cases hc : cancel st.op_c = true
    · rw [hr, if_pos hc]
      exact ⟨[], fp :: rest, rfl, rfl, by simp, by simp, by simp,
        fun e he => Or.inl he, fun _ => by simpa using hc⟩
    · rw [hr, if_neg hc]
      obtain ⟨pre', suf', hsplit, hrc, hic, hopc, hops, hev, hcan⟩ :=
        ih (nextIndexState fs embed clock total fp st)
      have harith : st.op_c + 1 + pre'.length = st.op_c + (fp :: pre').length := by
        simp only [List.length_cons]; omega
      refine ⟨fp :: pre', suf', by rw [List.cons_append, hsplit], ?_, ?_, ?_, ?_, ?_, ?_⟩
      · rw [hrc, nextIndexState_removed_c]
      · have hle := nextIndexState_indexed_c_le fs embed clock total fp st
        simp only [List.length_cons]
        omega
      · rw [hopc, nextIndexState_op_c]
        exact harith
      · rw [hops, nextIndexState_ops]
        simp
      · intro e he
        rcases hev e he with h1 | ⟨h2, h3, h4⟩
        · rw [nextIndexState_events] at h1
          rcases List.mem_append.mp h1 with h5 | h5
          · exact Or.inl h5
          · right
            have he5 : e = ⟨st.op_c + 1, total, Phase.indexing⟩ := by
              simpa using h5
            subst he5
            refine ⟨rfl, ?_, rfl⟩
            show st.op_c + 1 ≤ st.op_c + (fp :: pre').length
            simp only [List.length_cons]; omega
        · right
          refine ⟨h2, ?_, h4⟩
          rw [nextIndexState_op_c] at h3
          simp only [List.length_cons]
          omega
      · intro h
        have hc2 := hcan h
        rw [nextIndexState_op_c] at hc2
        rwa [harith] at hc2

/-! Helper lemmas: how the loops affect stored entries. -/

theorem runIndex_lookup_not_mem (fs : FS) (embed : String → Option (List Rat))
    (clock : Nat → Time) (cancel : Nat → Bool) (total : Nat) :
    ∀ (l : List String) (st : SyncState) (p : String), p ∉ l →
      lookupEntry (runIndex fs embed clock cancel total l st).col p =
        lookupEntry st.col p := by
  intro l
  induction l with
  | nil => intro st p _; rfl
  | cons fp rest ih =>
    intro st p hp
    have hr : runIndex fs embed clock cancel total (fp :: rest) st =
        if cancel st.op_c then st
        else runIndex fs embed clock cancel total rest
          (nextIndexState fs embed clock total fp st) := rfl
    by_cases hc : cancel st.op_c = true
    · rw [hr, if_pos hc]
    · rw [hr, if_neg hc]
      have hprest : p ∉ rest := fun h => hp (List.mem_cons_of_mem _ h)
      have hpfp : p ≠ fp := fun h => hp (h ▸ List.mem_cons_self _ _)
      rw [ih (nextIndexState fs embed clock total fp st) p hprest,
        nextIndexState_col]
      exact indexStep_col_ne fs embed clock fp st p hpfp

theorem runIndex_preserves_some (fs : FS) (embed : String → Option (List Rat))
    (clock : Nat → Time) (cancel : Nat → Bool) (total : Nat) :
    ∀ (l : List String) (st : SyncState) (p : String),
      lookupEntry st.col p ≠ none →
      lookupEntry (runIndex fs embed clock cancel total l st).col p ≠ none := by
  intro l
  induction l with
  | nil => intro st p h; exact h
  | cons fp rest ih =>
    intro st p h
    have hr : runIndex fs embed clock cancel total (fp :: rest) st =
        if cancel st.op_c then st
        else runIndex fs embed clock cancel total rest
          (nextIndexState fs embed clock total fp st) := rfl
    by_cases hc : cancel st.op_c = true
    · rw [hr, if_pos hc]; exact h
    · rw [hr, if_neg hc]
      refine ih (nextIndexState fs embed clock total fp st) p ?_
      rw [nextIndexState_col]
      exact indexStep_col_some fs embed clock fp st p h

theorem runIndex_lookup_success (fs : FS) (embed : String → Option (List Rat))
    (clock : Nat → Time) (total : Nat) :
    ∀ (l : List String) (st : SyncState) (p : String) (v : List Rat),
      p ∈ l → (pyStrip (fs.content p) == "") = false →
      embed (fs.content p) = some v →
      ∃ k, lookupEntry
          (runIndex fs embed clock (fun _ => false) total l st).col p =
        some { embedding := v
               document := fs.content p
               metadata := { file_path := p
                             file_name := basename p
                             file_ext := splitextExt p
                             indexed_at := clock k
                             file_size := (fs.content p).length
                             file_mtime := fs.mtime p } } := by
  intro l
  induction l with
  | nil => intro st p v hp _ _; simp at hp
  | cons fp rest ih =>
    intro st p v hp h1 h2
    have hr : runIndex fs embed clock (fun _ => false) total (fp :: rest) st =
        runIndex fs embed clock (fun _ => false) total rest
          (nextIndexState fs embed clock total fp st) := rfl
    rw [hr]
    by_cases hprest : p ∈ rest
    · exact ih (nextIndexState fs embed clock total fp st) p v hprest h1 h2
    · have hpfp : p = fp := by
        rcases List.mem_cons.mp hp with h | h
        · exact h
        · exact absurd h hprest
      subst hpfp
      refine ⟨st.op_c, ?_⟩
      rw [runIndex_lookup_not_mem fs embed clock (fun _ => false) total rest
        (nextIndexState fs embed clock total p st) p hprest, nextIndexState_col]
      exact indexStep_col_success fs embed clock p st v h1 h2

theorem runRemove_no_write (cancel : Nat → Bool) (total : Nat) :
    ∀ (l : List String) (st : SyncState) (p : String),
      Op.removeOp p ∉ (runRemove cancel total l st).ops →
      lookupEntry (runRemove cancel total l st).col p = lookupEntry st.col p := by
  intro l
  induction l with
  | nil => intro st p _; rfl
  | cons fp rest ih =>
    intro st p hop
    have hr : runRemove cancel total (fp :: rest) st =
        if cancel st.op_c then st
        else runRemove cancel total rest
          { col := deleteId fp st.col
            removed_c := st.removed_c + 1
            indexed_c := st.indexed_c
            op_c := st.op_c + 1
            events := st.events ++ [⟨st.op_c + 1, total, Phase.removing⟩]
            ops := st.ops ++ [Op.removeOp fp] } := rfl
    by_cases hc : cancel st.op_c = true
    · rw [hr, if_pos hc]
    · rw [hr, if_neg hc] at hop ⊢
      have hfpp : fp ≠ p := by
        rintro rfl
        obtain ⟨pre2, suf2, _, _, _, _, _, hops2, _, _⟩ :=
          runRemove_spec cancel total rest
            { col := deleteId fp st.col
              removed_c := st.removed_c + 1
              indexed_c := st.indexed_c
              op_c := st.op_c + 1
              events := st.events ++ [⟨st.op_c + 1, total, Phase.removing⟩]
              ops := st.ops ++ [Op.removeOp fp] }
        apply hop
        rw [hops2]
        show Op.removeOp fp ∈ (st.ops ++ [Op.removeOp fp]) ++ _
        simp
      rw [ih _ p hop]
      show lookupEntry (deleteId fp st.col) p = lookupEntry st.col p
      exact lookupEntry_deleteId_ne st.col fp p (fun h => hfpp h.symm)

theorem runIndex_no_write (fs : FS) (embed : String → Option (List Rat))
    (clock : Nat → Time) (cancel : Nat → Bool) (total : Nat) :
    ∀ (l : List String) (st : SyncState) (p : String),
      Op.indexOp p ∉ (runIndex fs embed clock cancel total l st).ops →
      lookupEntry (runIndex fs embed clock cancel total l st).col p =
        lookupEntry st.col p := by
  intro l
  induction l with
  | nil => intro st p _; rfl
  | cons fp rest ih =>
    intro st p hop
    have hr : runIndex fs embed clock cancel total (fp :: rest) st =
        if cancel st.op_c then st
        else runIndex fs embed clock cancel total rest
          (nextIndexState fs embed clock total fp st) := rfl
    by_cases hc : cancel st.op_c = true
    · rw [hr, if_pos hc]
    · rw [hr, if_neg hc] at hop ⊢
      have hopsmem : indexOpOf fs embed fp ∈
          (runIndex fs embed clock cancel total rest
            (nextIndexState fs embed clock total fp st)).ops := by
        obtain ⟨pre2, suf2, _, _, _, _, hops2, _, _⟩ :=
          runIndex_spec fs embed clock cancel total rest
            (nextIndexState fs embed clock total fp st)
        rw [hops2, nextIndexState_ops]
        simp
      rw [ih _ p hop, nextIndexState_col]
      by_cases hfpp : fp = p
      · subst hfpp
        by_cases hidx : indexOpOf fs embed fp = Op.indexOp fp
        · rw [hidx] at hopsmem
          exact absurd hopsmem hop
        · exact congrArg (fun c => lookupEntry c fp)
            (indexStep_col_no_index fs embed clock fp st hidx)
      · exact indexStep_col_ne fs embed clock fp st p (fun h => hfpp h.symm)

/-! Helper lemmas: membership in the synchronization plan. -/

theorem staleCheck_iff (fs : FS) (col : Collection) (fp : String) :
    staleCheck fs (get_indexed_files col) fp = true ↔
      (lookupEntry col fp = none ∨
        ∃ e, lookupEntry col fp = some e ∧
          e.metadata.indexed_at < fs.mtime fp) := by
  unfold staleCheck
  rw [dictLookup_get_indexed_files]
  cases h : lookupEntry col fp with
  | none => simp
  | some e => simp [decide_eq_true_eq]

theorem mem_to_index_iff (fs : FS) (col : Collection) (all_files : List String)
    (fp : String) :
    fp ∈ (get_files_to_index fs col all_files).1 ↔
      fp ∈ all_files ∧ fs.onDisk fp = true ∧
        IMAGE_EXTS.contains (extLower fp) = false ∧
        staleCheck fs (get_indexed_files col) fp = true := by
  unfold get_files_to_index
  rw [List.mem_filter]
  simp only [Bool.and_eq_true, Bool.not_eq_true']
  tauto

theorem mem_to_remove_iff (fs : FS) (col : Collection) (all_files : List String)
    (p : String) :
    p ∈ (get_files_to_index fs col all_files).2 ↔
      lookupEntry col p ≠ none ∧ p ∉ all_files ∧ fs.onDisk p = false := by
  unfold get_files_to_index
  rw [List.mem_filter, mem_dictKeys_iff]
  simp only [Bool.and_eq_true, Bool.not_eq_true']
  constructor
  · rintro ⟨h1, h2, h3⟩
    refine ⟨h1, ?_, h3⟩
    intro hm
    have hc : all_files.contains p = true := List.elem_eq_true_of_mem hm
    rw [h2] at hc
    exact Bool.noConfusion hc
  · rintro ⟨h1, h2, h3⟩
    refine ⟨h1, ?_, h3⟩
    cases hc : all_files.contains p with
    | false => rfl
    | true => exact absurd (List.mem_of_elem_eq_true hc) h2

/-! Claim theorems. -/

/-- C10: for every input file list and every index state, the plan satisfies
`toIndex ⊆ all_files` and `toRemove ∩ all_files = ∅`, hence `toIndex` and
`toRemove` are disjoint: no path is both embedded and deleted in one pass. -/
theorem C10_plan_soundness (fs : FS) (col : Collection) (all_files : List String) :
    (∀ p ∈ (get_files_to_index fs col all_files).1, p ∈ all_files) ∧
    (∀ p ∈ (get_files_to_index fs col all_files).2, p ∉ all_files) ∧
    (∀ p, p ∈ (get_files_to_index fs col all_files).1 →
      p ∉ (get_files_to_index fs col all_files).2) := by
  have h1 : ∀ p ∈ (get_files_to_index fs col all_files).1, p ∈ all_files := by
    intro p hp
    exact ((mem_to_index_iff fs col all_files p).mp hp).1
  have h2 : ∀ p ∈ (get_files_to_index fs col all_files).2, p ∉ all_files := by
    intro p hp
    exact ((mem_to_remove_iff fs col all_files p).mp hp).2.1
  exact ⟨h1, h2, fun p hp1 hp2 => h2 p hp2 (h1 p hp1)⟩

/-- C10 witness: a concrete plan instance. -/
theorem C10_plan_soundness_witness :
    "a.py" ∈ (get_files_to_index fsW [] ["a.py"]).1 ∧
    "a.py" ∉ (get_files_to_index fsW [] ["a.py"]).2 :=
  ⟨by decide, (C10_plan_soundness fsW [] ["a.py"]).2.2 "a.py" (by decide)⟩

/-- C4 counterexample: the displayed similarity is `max(0, 1 - d/2)` with no
upper clamp, so at distance `-2` it is `2`, which differs from
`clamp(1 - d/2, 0, 1) = 1` and lies outside `[0, 1]` — refuting the claim for
distances outside `[0, 2]`. -/
theorem C4_counterexample :
    display_similarity (-2) = 2 ∧ spec_similarity (-2) = 1 ∧
    display_similarity (-2) ≠ spec_similarity (-2) ∧
    1 < display_similarity (-2) := by
  have h1 : display_similarity (-2) = 2 := by
    unfold display_similarity
    rw [max_eq_right (by norm_num : (0 : Rat) ≤ 1 - (-2) / 2)]
    norm_num
  have h2 : spec_similarity (-2) = 1 := by
    unfold spec_similarity
    rw [max_eq_right (by norm_num : (0 : Rat) ≤ 1 - (-2) / 2)]
    rw [min_eq_left (by norm_num : (1 : Rat) ≤ 1 - (-2) / 2)]
  exact ⟨h1, h2, by rw [h1, h2]; norm_num, by rw [h1]; norm_num⟩

/-- C4 (amended): the displayed similarity is `max(0, 1 - d/2)`; it agrees with
`clamp(1 - d/2, 0, 1)` for every `d ≥ 0`, equals `1` at `d = 0` and `0` at
`d = 2`, is strictly decreasing on `[0, 2]`, and lies in `[0, 1]` for every
`d ≥ 0` (for `d < 0` it exceeds `1`, as the counterexample shows). -/
theorem C4_similarity_properties (d : Rat) :
    (0 ≤ d → display_similarity d = spec_similarity d) ∧
    display_similarity 0 = 1 ∧
    display_similarity 2 = 0 ∧
    (∀ d2 : Rat, 0 ≤ d → d < d2 → d2 ≤ 2 →
      display_similarity d2 < display_similarity d) ∧
    (0 ≤ d → 0 ≤ display_similarity d ∧ display_similarity d ≤ 1) := by
  have hub : ∀ x : Rat, 0 ≤ x → max 0 (1 - x / 2) ≤ 1 := by
    intro x hx
    apply max_le (by norm_num)
    nlinarith
  refine ⟨?_, ?_, ?_, ?_, ?_⟩
  · intro hd
    unfold display_similarity spec_similarity
    rw [min_eq_right (hub d hd)]
  · unfold display_similarity
    rw [max_eq_right (by norm_num : (0 : Rat) ≤ 1 - 0 / 2)]
    norm_num
  · unfold display_similarity
    rw [max_eq_left (by norm_num : (1 : Rat) - 2 / 2 ≤ 0)]
  · intro d2 hd hlt hle
    unfold display_similarity
    rw [max_eq_right (by nlinarith : (0 : Rat) ≤ 1 - d2 / 2),
      max_eq_right (by nlinarith : (0 : Rat) ≤ 1 - d / 2)]
    nlinarith
  · intro hd
    exact ⟨le_max_left _ _, hub d hd⟩

/-- C4 witness: the amended properties instantiated at distance 1. -/
theorem C4_similarity_properties_witness :
    display_similarity 1 = spec_similarity 1 ∧
    display_similarity (3/2) < display_similarity 1 ∧
    0 ≤ display_similarity 1 ∧ display_similarity 1 ≤ 1 := by
  have h := C4_similarity_properties 1
  exact ⟨h.1 (by norm_num),
    h.2.2.2.1 (3/2) (by norm_num) (by norm_num) (by norm_num),
    (h.2.2.2.2 (by norm_num)).1, (h.2.2.2.2 (by norm_num)).2⟩

/-- C5: the store returns the nearest row with distance exactly 0 (and a second
row at distance 1), yet `search_similar_files` returns only the distance-1 row:
the Python truthiness guard `if m and d and dist and ...` (main.py 236) treats
the float `0.0` as falsy and silently drops the best match, although the
declared `Optional` types show the guard was meant as a `None` check and the
claim (one SearchResult per returned triple, including distance 0) states the
intent. -/
theorem C5_distance_zero_dropped :
    (storeQueryC5 [1] 2).head? =
      some { metadata := some metaC5a
             document := some "exact match"
             distance := some 0 } ∧
    search_similar_files true true embedW storeQueryC5 "q" 2 =
      [{ file_path := "other.py", content := "other text", distance := 1 }] := by
  exact ⟨rfl, by decide⟩

/-- C6: on a network whose cost probe reports "metered" and with the primary
endpoint not accepted, host resolution returns the distinct metered-network
error and never issues the alternative-host probe; the alternative host is
probed only when the policy permits failover; and when no candidate is
reachable the two failure messages are distinct. -/
theorem C6_metered_failover_policy (env : NetEnv) (fai : Bool) :
    (env.metered = true → env.primaryOk = false →
      (find_and_set_active_host env fai).1 = (none, some metered_error_msg) ∧
      Probe.altVersion ∉ (find_and_set_active_host env fai).2) ∧
    (Probe.altVersion ∈ (find_and_set_active_host env fai).2 →
      env.metered = false) ∧
    (env.primaryOk = false → env.altOk = false →
      (find_and_set_active_host env fai).1.1 = none ∧
      (env.metered = true →
        (find_and_set_active_host env fai).1.2 = some metered_error_msg) ∧
      (env.metered = false →
        (find_and_set_active_host env fai).1.2 = some no_host_error_msg)) ∧
    metered_error_msg ≠ no_host_error_msg := by
  rcases env with ⟨p, g, m, a⟩
  cases p <;> cases g <;> cases m <;> cases a <;> cases fai <;>
    simp [find_and_set_active_host, try_alternative] <;> decide

/-- C6 witness: metered network, primary down — the metered error, without an
alternative-host probe. -/
theorem C6_metered_failover_policy_witness :
    (find_and_set_active_host ⟨false, false, true, true⟩ true).1 =
      (none, some metered_error_msg) ∧
    Probe.altVersion ∉ (find_and_set_active_host ⟨false, false, true, true⟩ true).2 :=
  (C6_metered_failover_policy ⟨false, false, true, true⟩ true).1 rfl rfl

/-- C1 counterexample: `a.py` is on disk with mtime 130, its IndexEntry records
`sourceModifiedAt` (`file_mtime`) 100 and `indexed_at` 150.  The claim says the
plan must re-index it (130 > 100 and it exists, not an image); the code
compares 130 against `indexed_at` 150 and leaves `toIndex` empty. -/
theorem C1_counterexample :
    fsC1.onDisk "a.py" = true ∧
    IMAGE_EXTS.contains (extLower "a.py") = false ∧
    lookupEntry colC1 "a.py" =
      some { embedding := [1], document := "print", metadata := metaC1 } ∧
    metaC1.file_mtime < fsC1.mtime "a.py" ∧
    "a.py" ∉ (get_files_to_index fsC1 colC1 ["a.py"]).1 := by
  exact ⟨rfl, by decide, rfl, by decide, by decide⟩

/-- C1 (amended): staleness is decided by comparing the current filesystem
modification time against the stored `indexed_at` (the wall-clock time the
entry was written), not against the stored `file_mtime`: a catalog path that
exists on disk and is not a binary-image extension is in `toIndex` iff it is
absent from the index or its current mtime is strictly newer than its
`indexed_at`; and a path whose mtime rose past its recorded `indexed_at`, with
all other catalog paths fresh, is re-indexed exactly alone. -/
theorem C1_staleness_vs_indexed_at (fs : FS) (col : Collection)
    (all_files : List String) (fp : String)
    (hdisk : fs.onDisk fp = true)
    (himg : IMAGE_EXTS.contains (extLower fp) = false) :
    (fp ∈ (get_files_to_index fs col all_files).1 ↔
      fp ∈ all_files ∧
        (lookupEntry col fp = none ∨
          ∃ e, lookupEntry col fp = some e ∧
            e.metadata.indexed_at < fs.mtime fp)) ∧
    (all_files.Nodup → fp ∈ all_files →
      (∃ e, lookupEntry col fp = some e ∧
        e.metadata.indexed_at < fs.mtime fp) →
      (∀ q ∈ all_files, q ≠ fp →
        fs.onDisk q = false ∨ IMAGE_EXTS.contains (extLower q) = true ∨
          ∃ e, lookupEntry col q = some e ∧
            fs.mtime q ≤ e.metadata.indexed_at) →
      (get_files_to_index fs col all_files).1 = [fp]) := by
  constructor
  · rw [mem_to_index_iff, staleCheck_iff]
    constructor
    · rintro ⟨h1, _, _, h4⟩
      exact ⟨h1, h4⟩
    · rintro ⟨h1, h4⟩
      exact ⟨h1, hdisk, himg, h4⟩
  · intro hnd hmem hstale hothers
    apply filter_eq_singleton_of_nodup all_files _ fp hnd hmem
    · rw [Bool.and_eq_true, Bool.and_eq_true]
      refine ⟨⟨hdisk, by rw [himg]; rfl⟩, ?_⟩
      rw [staleCheck_iff]
      exact Or.inr hstale
    · intro q hq hqfp
      rcases hothers q hq hqfp with h | h | h
      · rw [h]; simp
      · rw [h]; simp
      · rcases h with ⟨e, he, hle⟩
        have : staleCheck fs (get_indexed_files col) q = false := by
          cases hsc : staleCheck fs (get_indexed_files col) q with
          | false => rfl
          | true =>
            rcases (staleCheck_iff fs col q).mp hsc with h1 | ⟨e2, he2, hlt⟩
            · rw [h1] at he; exact Option.noConfusion he
            · rw [he] at he2
              obtain rfl : e = e2 := by injection he2
              exact absurd hlt (not_lt.mpr hle)
        rw [this]; simp

/-- C1 witness: the amended characterization at a concrete stale file. -/
theorem C1_staleness_vs_indexed_at_witness :
    (get_files_to_index fsC1b colC1 ["a.py"]).1 = ["a.py"] := by
  have h := (C1_staleness_vs_indexed_at fsC1b colC1 ["a.py"] "a.py"
    rfl (by decide)).2
  apply h (by decide) (by decide)
  · refine ⟨{ embedding := [1], document := "print", metadata := metaC1 }, rfl, ?_⟩
    decide
  · intro q hq hqfp
    exact absurd (by simpa using hq) hqfp

/-- The zero-total early return of `auto_index_files` is observationally the
same as running the (empty) loops, so every pass has the loop shape. -/
theorem auto_index_files_eq (fs : FS) (embed : String → Option (List Rat))
    (clock : Nat → Time) (cancel : Nat → Bool) (col : Collection)
    (all_files : List String) :
    auto_index_files fs embed clock cancel col all_files =
      { toIndexPlan := sortedPlan fs col all_files
        toRemovePlan := (get_files_to_index fs col all_files).2
        finalCol := (endState fs embed clock cancel col all_files).col
        events := (endState fs embed clock cancel col all_files).events
        ops := (endState fs embed clock cancel col all_files).ops
        opsDone := (endState fs embed clock cancel col all_files).op_c
        completion := ⟨(endState fs embed clock cancel col all_files).indexed_c,
          (sortedPlan fs col all_files).length,
          (endState fs embed clock cancel col all_files).removed_c,
          (get_files_to_index fs col all_files).2.length⟩ } := by
  unfold auto_index_files
  by_cases h : totalOps fs col all_files = 0
  · rw [if_pos h]
    unfold totalOps at h
    have h1 : sortedPlan fs col all_files = [] :=
      List.length_eq_zero.mp (by omega)
    have h2 : (get_files_to_index fs col all_files).2 = [] :=
      List.length_eq_zero.mp (by omega)
    have h3 : endState fs embed clock cancel col all_files =
        { col := col, removed_c := 0, indexed_c := 0, op_c := 0,
          events := [], ops := [] } := by
      unfold endState
      rw [h1, h2]
      rfl
    rw [h1, h2, h3]
    rfl
  · rw [if_neg h]

/-- C3: `toRemove` contains exactly the indexed paths absent from both the
current catalog set and the disk (so a path hidden by a filter but still on
disk is never in `toRemove`); and when exactly the indexed path `p` has
disappeared from disk and catalog, an uncancelled pass plans the removal of
`p` alone, deletes `p`'s entry, and every other stored entry survives. -/
theorem C3_removal_exactness (fs : FS) (embed : String → Option (List Rat))
    (clock : Nat → Time) (col : Collection) (all_files : List String) (p : String)
    (hidx : lookupEntry col p ≠ none)
    (hgone : fs.onDisk p = false)
    (hnotcat : p ∉ all_files)
    (hothers : ∀ q, q ≠ p → lookupEntry col q ≠ none →
      q ∈ all_files ∨ fs.onDisk q = true) :
    (∀ q, q ∈ (get_files_to_index fs col all_files).2 ↔
      (lookupEntry col q ≠ none ∧ q ∉ all_files ∧ fs.onDisk q = false)) ∧
    (auto_index_files fs embed clock (fun _ => false) col
      all_files).toRemovePlan = [p] ∧
    lookupEntry (auto_index_files fs embed clock (fun _ => false) col
      all_files).finalCol p = none ∧
    (∀ q, q ≠ p → lookupEntry col q ≠ none →
      lookupEntry (auto_index_files fs embed clock (fun _ => false) col
        all_files).finalCol q ≠ none) := by
  have hcontains : all_files.contains p = false := by
    cases hc : all_files.contains p with
    | false => rfl
    | true => exact absurd (List.mem_of_elem_eq_true hc) hnotcat
  have htr : (get_files_to_index fs col all_files).2 = [p] := by
    have hshape : (get_files_to_index fs col all_files).2 =
        (dictKeys (get_indexed_files col)).filter
          (fun ifp => !(all_files.contains ifp) && !(fs.onDisk ifp)) := rfl
    rw [hshape]
    apply filter_eq_singleton_of_nodup _ _ p (nodup_dedupFirstAux _ _)
      ((mem_dictKeys_iff col p).mpr hidx)
    · rw [hcontains, hgone]; rfl
    · intro x hx hxp
      have hxe : lookupEntry col x ≠ none := (mem_dictKeys_iff col x).mp hx
      rcases hothers x hxp hxe with hmem | hdiskx
      · have hc : all_files.contains x = true := List.elem_eq_true_of_mem hmem
        rw [hc]; rfl
      · rw [hdiskx]; simp
  have hnotis : p ∉ sortedPlan fs col all_files := by
    intro hmem
    have hmem2 : p ∈ (get_files_to_index fs col all_files).1 := by
      unfold sortedPlan at hmem
      exact (List.mem_insertionSort fileOrder).mp hmem
    exact hnotcat ((mem_to_index_iff fs col all_files p).mp hmem2).1
  obtain ⟨pre, suf, hsplit, hcol, _, _, _, _, _, hcan⟩ :=
    runRemove_spec (fun _ => false) (totalOps fs col all_files)
      (get_files_to_index fs col all_files).2
      { col := col, removed_c := 0, indexed_c := 0, op_c := 0,
        events := [], ops := [] }
  have hsuf : suf = [] := by
    cases suf with
    | nil => rfl
    | cons a as => exact Bool.noConfusion (hcan (by simp))
  have hpre : pre = (get_files_to_index fs col all_files).2 := by
    rw [hsplit, hsuf, List.append_nil]
  rw [auto_index_files_eq]
  refine ⟨fun q => mem_to_remove_iff fs col all_files q, htr, ?_, ?_⟩
  · show lookupEntry (endState fs embed clock (fun _ => false) col
      all_files).col p = none
    unfold endState
    rw [runIndex_lookup_not_mem fs embed clock (fun _ => false)
      (totalOps fs col all_files) (sortedPlan fs col all_files) _ p hnotis]
    rw [hcol, hpre, htr, lookupEntry_foldl_delete]
    simp
  · intro q hq hqe
    show lookupEntry (endState fs embed clock (fun _ => false) col
      all_files).col q ≠ none
    unfold endState
    apply runIndex_preserves_some
    rw [hcol, hpre, htr, lookupEntry_foldl_delete]
    have : ¬ q ∈ [p] := by simpa using hq
    rw [if_neg this]
    exact hqe

/-- C3 witness: deleting the only indexed file removes exactly its entry. -/
theorem C3_removal_exactness_witness :
    (auto_index_files fsC3 embedW clockW (fun _ => false) colC3
      []).toRemovePlan = ["gone.txt"] ∧
    lookupEntry (auto_index_files fsC3 embedW clockW (fun _ => false) colC3
      []).finalCol "gone.txt" = none := by
  have hothers : ∀ q, q ≠ "gone.txt" → lookupEntry colC3 q ≠ none →
      q ∈ ([] : List String) ∨ fsC3.onDisk q = true := by
    intro q hq hqe
    exfalso
    apply hqe
    have hne : (metaC3.file_path == q) = false := by
      cases hb : metaC3.file_path == q with
      | false => rfl
      | true =>
        exfalso
        apply hq
        have : metaC3.file_path = q := by
          exact eq_of_beq hb
        rw [← this]
        rfl
    show lastMatch (fun r => r.metadata.file_path == q) colC3 = none
    unfold colC3
    simp [lastMatch, hne]
  have h := C3_removal_exactness fsC3 embedW clockW colC3 [] "gone.txt"
    (by decide) rfl (by decide) hothers
  exact ⟨h.2.1, h.2.2.1⟩

/-- C9: the catalog scan never fails as a whole — an entry whose read raises a
permission or I/O error (and whose extension is not on the raster-image
allow-list that skips the content sniff) is merely skipped, leaving the rest
of the scan unchanged — and the resulting relative-path list is sorted
case-insensitively. -/
theorem C9_scan_robust_sorted (excluded : String → Bool) (entries : List DirEntry)
    (e : DirEntry)
    (hread : e.readable = false)
    (himg : IMAGE_EXTS.contains (extLower e.relPath) = false) :
    List.Sorted lowerOrd (scan_and_cache_all_files excluded entries) ∧
    scan_and_cache_all_files excluded entries =
      scan_and_cache_all_files excluded
        (entries.filter (fun x => !(x == e))) := by
  constructor
  · haveI : IsTotal String lowerOrd := ⟨lowerOrd_total⟩
    haveI : IsTrans String lowerOrd := ⟨lowerOrd_trans⟩
    exact List.sorted_insertionSort lowerOrd _
  · have hpe : (!excluded e.relPath && is_includable_file e) = false := by
      have hinc : is_includable_file e = false := by
        unfold is_includable_file is_text_file
        rw [himg, hread]
        simp
      rw [hinc, Bool.and_false]
    unfold scan_and_cache_all_files
    rw [List.filter_filter]
    congr 2
    apply List.filter_congr
    intro x _
    by_cases hxe : x = e
    · subst hxe
      rw [hpe]
      simp
    · have : (x == e) = false := by
        cases hb : x == e with
        | false => rfl
        | true => exact absurd (eq_of_beq hb) hxe
      rw [this]
      simp

/-- C9 witness: an unreadable entry is skipped without affecting the scan. -/
theorem C9_scan_robust_sorted_witness :
    scan_and_cache_all_files (fun _ => false) entriesC9 =
      scan_and_cache_all_files (fun _ => false)
        (entriesC9.filter (fun x => !(x == entryC9))) :=
  (C9_scan_robust_sorted (fun _ => false) entriesC9 entryC9 rfl (by decide)).2

/-- C7: in every pass, all removal work precedes all indexing work and the
indexing work follows the depth-then-lowercased-name order (the processed ops
are a removal-plan prefix followed by an index-plan prefix; the index plan is
sorted by `fileOrder` and is a permutation of the computed `to_index`); a file
is upserted only if its content is non-empty after strip and its embedding
succeeded (so empty files and `None` embeddings are skipped without an index
write); and an uncancelled pass processes every planned unit, so one embedding
failure never aborts the pass. -/
theorem C7_processing_order_and_skips (fs : FS) (embed : String → Option (List Rat))
    (clock : Nat → Time) (cancel : Nat → Bool) (col : Collection)
    (all_files : List String) :
    (∃ rpre rsuf ipre isuf,
      (auto_index_files fs embed clock cancel col all_files).toRemovePlan =
        rpre ++ rsuf ∧
      (auto_index_files fs embed clock cancel col all_files).toIndexPlan =
        ipre ++ isuf ∧
      (auto_index_files fs embed clock cancel col all_files).ops =
        rpre.map Op.removeOp ++ ipre.map (indexOpOf fs embed)) ∧
    List.Sorted fileOrder
      (auto_index_files fs embed clock cancel col all_files).toIndexPlan ∧
    (auto_index_files fs embed clock cancel col all_files).toIndexPlan.Perm
      (get_files_to_index fs col all_files).1 ∧
    (∀ p, Op.indexOp p ∈
        (auto_index_files fs embed clock cancel col all_files).ops →
      pyStrip (fs.content p) ≠ "" ∧ embed (fs.content p) ≠ none) ∧
    (∀ p, Op.indexOp p ∉
        (auto_index_files fs embed clock cancel col all_files).ops →
      Op.removeOp p ∉
        (auto_index_files fs embed clock cancel col all_files).ops →
      lookupEntry
        (auto_index_files fs embed clock cancel col all_files).finalCol p =
        lookupEntry col p) ∧
    (cancel = (fun _ => false) →
      (auto_index_files fs embed clock cancel col all_files).ops =
        (auto_index_files fs embed clock cancel col
          all_files).toRemovePlan.map Op.removeOp ++
        (auto_index_files fs embed clock cancel col
          all_files).toIndexPlan.map (indexOpOf fs embed)) := by
  have he := auto_index_files_eq fs embed clock cancel col all_files
  have hplan : (auto_index_files fs embed clock cancel col all_files).toIndexPlan =
      sortedPlan fs col all_files := by rw [he]
  have hrplan : (auto_index_files fs embed clock cancel col all_files).toRemovePlan =
      (get_files_to_index fs col all_files).2 := by rw [he]
  have hops : (auto_index_files fs embed clock cancel col all_files).ops =
      (endState fs embed clock cancel col all_files).ops := by rw [he]
  have hfcol : (auto_index_files fs embed clock cancel col all_files).finalCol =
      (endState fs embed clock cancel col all_files).col := by rw [he]
  obtain ⟨rpre, rsuf, hsplitR, hcolR, hrcR, hicR, hopcR, hopsR, hevR, hcanR⟩ :=
    runRemove_spec cancel (totalOps fs col all_files)
      (get_files_to_index fs col all_files).2
      { col := col, removed_c := 0, indexed_c := 0, op_c := 0,
        events := [], ops := [] }
  obtain ⟨ipre, isuf, hsplitI, hrcI, hicI, hopcI, hopsI, hevI, hcanI⟩ :=
    runIndex_spec fs embed clock cancel (totalOps fs col all_files)
      (sortedPlan fs col all_files)
      (runRemove cancel (totalOps fs col all_files)
        (get_files_to_index fs col all_files).2
        { col := col, removed_c := 0, indexed_c := 0, op_c := 0,
          events := [], ops := [] })
  have hendops : (endState fs embed clock cancel col all_files).ops =
      rpre.map Op.removeOp ++ ipre.map (indexOpOf fs embed) := by
    unfold endState
    rw [hopsI, hopsR]
    simp
  refine ⟨⟨rpre, rsuf, ipre, isuf, ?_, ?_, ?_⟩, ?_, ?_, ?_, ?_, ?_⟩
  · rw [hrplan]; exact hsplitR
  · rw [hplan]; exact hsplitI
  · rw [hops]; exact hendops
  · rw [hplan]
    haveI : IsTotal String fileOrder := ⟨fileOrder_total⟩
    haveI : IsTrans String fileOrder := ⟨fileOrder_trans⟩
    exact List.sorted_insertionSort fileOrder _
  · rw [hplan]
    exact List.perm_insertionSort fileOrder _
  · intro p hp
    rw [hops, hendops] at hp
    rcases List.mem_append.mp hp with h1 | h1
    · obtain ⟨x, _, hx⟩ := List.mem_map.mp h1
      exact Op.noConfusion hx
    · obtain ⟨x, _, hx⟩ := List.mem_map.mp h1
      unfold indexOpOf at hx
      by_cases hc : (pyStrip (fs.content x) == "") = true
      · rw [if_pos hc] at hx
        exact Op.noConfusion hx
      · rw [if_neg hc] at hx
        cases he2 : embed (fs.content x) with
        | none =>
          rw [he2] at hx
          exact Op.noConfusion hx
        | some v =>
          rw [he2] at hx
          obtain rfl : x = p := by injection hx
          constructor
          · intro habs
            apply hc
            rw [habs]
            rfl
          · rw [he2]
            exact fun h => Option.noConfusion h
  · intro p hpi hpr
    rw [hops] at hpi hpr
    rw [hfcol]
    unfold endState at hpi ⊢
    rw [runIndex_no_write fs embed clock cancel (totalOps fs col all_files)
      (sortedPlan fs col all_files) _ p hpi]
    have hprs : Op.removeOp p ∉ (runRemove cancel (totalOps fs col all_files)
        (get_files_to_index fs col all_files).2
        { col := col, removed_c := 0, indexed_c := 0, op_c := 0,
          events := [], ops := [] }).ops := by
      intro hmem
      apply hpr
      rw [hendops]
      rw [hopsR] at hmem
      exact List.mem_append.mpr (Or.inl (by simpa using hmem))
    rw [runRemove_no_write cancel (totalOps fs col all_files)
      (get_files_to_index fs col all_files).2 _ p hprs]
  · intro hcanc
    subst hcanc
    have hrsuf : rsuf = [] := by
      cases rsuf with
      | nil => rfl
      | cons a as => exact Bool.noConfusion (hcanR (by simp))
    have hisuf : isuf = [] := by
      cases isuf with
      | nil => rfl
      | cons a as => exact Bool.noConfusion (hcanI (by simp))
    rw [hrsuf, List.append_nil] at hsplitR
    rw [hisuf, List.append_nil] at hsplitI
    rw [hops, hendops, hrplan, hplan, hsplitR, hsplitI]

/-- C7 witness: an uncancelled pass over one stale file performs exactly its
planned indexing op. -/
theorem C7_processing_order_and_skips_witness :
    (auto_index_files fsW embedW clockW (fun _ => false) [] ["a.py"]).ops =
      [Op.indexOp "a.py"] := by
  have h := (C7_processing_order_and_skips fsW embedW clockW (fun _ => false)
    [] ["a.py"]).2.2.2.2.2 rfl
  rw [h]
  decide
/-- C8: every progress callback reports `completed ≤ total` and a phase that is
"removing" or "indexing"; the completion counts never exceed their targets; a
pass that processed fewer units than planned did so only because the cancel
check before the next unit returned true; and a path with no processed removal
or upsert op — in particular the file in flight when cancellation was
observed — has its stored entry unchanged. -/
theorem C8_cancellation_progress_invariant (fs : FS)
    (embed : String → Option (List Rat)) (clock : Nat → Time)
    (cancel : Nat → Bool) (col : Collection) (all_files : List String) :
    (∀ e ∈ (auto_index_files fs embed clock cancel col all_files).events,
      e.completed ≤ e.total ∧
        (e.phase = Phase.removing ∨ e.phase = Phase.indexing)) ∧
    (auto_index_files fs embed clock cancel col all_files).completion.indexed_c ≤
      (auto_index_files fs embed clock cancel col
        all_files).completion.index_target ∧
    (auto_index_files fs embed clock cancel col all_files).completion.removed_c ≤
      (auto_index_files fs embed clock cancel col
        all_files).completion.remove_target ∧
    ((auto_index_files fs embed clock cancel col all_files).opsDone <
        (auto_index_files fs embed clock cancel col
          all_files).toIndexPlan.length +
        (auto_index_files fs embed clock cancel col
          all_files).toRemovePlan.length →
      cancel (auto_index_files fs embed clock cancel col all_files).opsDone =
        true) ∧
    (∀ p, Op.indexOp p ∉
        (auto_index_files fs embed clock cancel col all_files).ops →
      Op.removeOp p ∉
        (auto_index_files fs embed clock cancel col all_files).ops →
      lookupEntry
        (auto_index_files fs embed clock cancel col all_files).finalCol p =
        lookupEntry col p) := by
  have he := auto_index_files_eq fs embed clock cancel col all_files
  obtain ⟨rpre, rsuf, hsplitR, hcolR, hrcR, hicR, hopcR, hopsR, hevR, hcanR⟩ :=
    runRemove_spec cancel (totalOps fs col all_files)
      (get_files_to_index fs col all_files).2
      { col := col, removed_c := 0, indexed_c := 0, op_c := 0,
        events := [], ops := [] }
  obtain ⟨ipre, isuf, hsplitI, hrcI, hicI, hopcI, hopsI, hevI, hcanI⟩ :=
    runIndex_spec fs embed clock cancel (totalOps fs col all_files)
      (sortedPlan fs col all_files)
      (runRemove cancel (totalOps fs col all_files)
        (get_files_to_index fs col all_files).2
        { col := col, removed_c := 0, indexed_c := 0, op_c := 0,
          events := [], ops := [] })
  set R := runRemove cancel (totalOps fs col all_files)
    (get_files_to_index fs col all_files).2
    { col := col, removed_c := 0, indexed_c := 0, op_c := 0,
      events := [], ops := [] } with hRdef
  set E := runIndex fs embed clock cancel (totalOps fs col all_files)
    (sortedPlan fs col all_files) R with hEdef
  have hendE : endState fs embed clock cancel col all_files = E := rfl
  have hicR0 : R.indexed_c = 0 := hicR
  have hrcR0 : R.removed_c = 0 + rpre.length := hrcR
  have hopcR0 : R.op_c = 0 + rpre.length := hopcR
  have hrprelen : rpre.length ≤ (get_files_to_index fs col all_files).2.length := by
    rw [hsplitR]
    simp
  have hiprelen : ipre.length ≤ (sortedPlan fs col all_files).length := by
    rw [hsplitI]
    simp
  have htotal : totalOps fs col all_files =
      (sortedPlan fs col all_files).length +
        (get_files_to_index fs col all_files).2.length := rfl
  have hplan : (auto_index_files fs embed clock cancel col all_files).toIndexPlan =
      sortedPlan fs col all_files := by rw [he]
  have hrplan : (auto_index_files fs embed clock cancel col
      all_files).toRemovePlan = (get_files_to_index fs col all_files).2 := by
    rw [he]
  have hops : (auto_index_files fs embed clock cancel col all_files).ops =
      E.ops := by rw [he, hendE]
  have hfcol : (auto_index_files fs embed clock cancel col all_files).finalCol =
      E.col := by rw [he, hendE]
  have hev2 : (auto_index_files fs embed clock cancel col all_files).events =
      E.events := by rw [he, hendE]
  have hod : (auto_index_files fs embed clock cancel col all_files).opsDone =
      E.op_c := by rw [he, hendE]
  have hcompl : (auto_index_files fs embed clock cancel col all_files).completion =
      ⟨E.indexed_c, (sortedPlan fs col all_files).length,
        E.removed_c, (get_files_to_index fs col all_files).2.length⟩ := by
    rw [he, hendE]
  refine ⟨?_, ?_, ?_, ?_, ?_⟩
  · intro e hmem
    rw [hev2] at hmem
    have hphase : e.phase = Phase.removing ∨ e.phase = Phase.indexing := by
      cases e.phase with
      | removing => exact Or.inl rfl
      | indexing => exact Or.inr rfl
    refine ⟨?_, hphase⟩
    rcases hevI e hmem with h1 | ⟨h2, h3, _⟩
    · rcases hevR e h1 with h4 | ⟨h5, h6, _⟩
      · exact absurd h4 (by simp)
      · have h6b : e.completed ≤ 0 + rpre.length := h6
        rw [h5, htotal]
        omega
    · have h3b : e.completed ≤ R.op_c + ipre.length := h3
      rw [hopcR0] at h3b
      rw [h2, htotal]
      omega
  · rw [hcompl]
    show E.indexed_c ≤ (sortedPlan fs col all_files).length
    have h1 : E.indexed_c ≤ R.indexed_c + ipre.length := hicI
    rw [hicR0] at h1
    omega
  · rw [hcompl]
    show E.removed_c ≤ (get_files_to_index fs col all_files).2.length
    have h1 : E.removed_c = R.removed_c := hrcI
    rw [h1, hrcR0]
    omega
  · intro hlt
    rw [hod, hplan, hrplan] at hlt
    rw [hod]
    have hEopc : E.op_c = R.op_c + ipre.length := hopcI
    have hEopc2 : E.op_c = rpre.length + ipre.length := by
      rw [hEopc, hopcR0]; omega
    cases hisuf : isuf with
    | cons a as =>
      have hc1 := hcanI (by rw [hisuf]; exact fun h => List.noConfusion h)
      have hc2 : cancel (R.op_c + ipre.length) = true := hc1
      rw [hopcR0] at hc2
      rw [hEopc2]
      have harg : (0 : Nat) + rpre.length + ipre.length =
        rpre.length + ipre.length := by omega
      rwa [harg] at hc2
    | nil =>
      rw [hisuf, List.append_nil] at hsplitI
      have hrsuf : rsuf ≠ [] := by
        intro habs
        rw [habs, List.append_nil] at hsplitR
        rw [hEopc2, ← hsplitI, ← hsplitR] at hlt
        omega
      have hcr : cancel (0 + rpre.length) = true := hcanR hrsuf
      cases htis : sortedPlan fs col all_files with
      | nil =>
        have hipre0 : ipre.length = 0 := by
          have hlen := congrArg List.length hsplitI
          rw [htis] at hlen
          simpa using hlen.symm
        rw [hEopc2, hipre0]
        have harg : (0 : Nat) + rpre.length = rpre.length + 0 := by omega
        rwa [harg] at hcr
      | cons fp rest =>
        exfalso
        have hstop : runIndex fs embed clock cancel (totalOps fs col all_files)
            (fp :: rest) R = R := by
          have hru : runIndex fs embed clock cancel (totalOps fs col all_files)
              (fp :: rest) R =
              if cancel R.op_c then R
              else runIndex fs embed clock cancel (totalOps fs col all_files)
                rest (nextIndexState fs embed clock (totalOps fs col all_files)
                  fp R) := rfl
          rw [hru, if_pos (by rw [hopcR0]; exact hcr)]
        have h1 : E.op_c = R.op_c + ipre.length := hopcI
        have h2 : E = runIndex fs embed clock cancel (totalOps fs col all_files)
            (fp :: rest) R := by rw [hEdef, htis]
        rw [h2, hstop] at h1
        have hlen : ipre.length = rest.length + 1 := by
          have hlc := congrArg List.length hsplitI
          rw [htis] at hlc
          simp at hlc
          omega
        omega
  · intro p hpi hpr
    rw [hops] at hpi hpr
    rw [hfcol, hEdef]
    rw [runIndex_no_write fs embed clock cancel (totalOps fs col all_files)
      (sortedPlan fs col all_files) R p (by rw [← hEdef]; exact hpi)]
    have hprs : Op.removeOp p ∉ R.ops := by
      intro hmem
      apply hpr
      have hEops : E.ops = R.ops ++ ipre.map (indexOpOf fs embed) := hopsI
      rw [hEops]
      exact List.mem_append.mpr (Or.inl hmem)
    rw [hRdef] at hprs
    rw [runRemove_no_write cancel (totalOps fs col all_files)
      (get_files_to_index fs col all_files).2 _ p hprs]

/-- C8 witness: a stop event that is already set prevents any write — the
planned stale file's entry is untouched. -/
theorem C8_cancellation_progress_invariant_witness :
    lookupEntry (auto_index_files fsC1b embedW clockW (fun _ => true) colC1
      ["a.py"]).finalCol "a.py" = lookupEntry colC1 "a.py" :=
  (C8_cancellation_progress_invariant fsC1b embedW clockW (fun _ => true) colC1
    ["a.py"]).2.2.2.2 "a.py" (by decide) (by decide)

/-- A path fails the staleness test exactly when it has a stored entry whose
`indexed_at` is at least the current mtime. -/
theorem staleCheck_eq_false_iff (fs : FS) (col : Collection) (fp : String) :
    staleCheck fs (get_indexed_files col) fp = false ↔
      ∃ e, lookupEntry col fp = some e ∧
        fs.mtime fp ≤ e.metadata.indexed_at := by
  constructor
  · intro h
    cases hl : lookupEntry col fp with
    | none =>
      have htrue : staleCheck fs (get_indexed_files col) fp = true :=
        (staleCheck_iff fs col fp).mpr (Or.inl hl)
      rw [h] at htrue
      exact Bool.noConfusion htrue
    | some e =>
      refine ⟨e, rfl, ?_⟩
      by_contra hlt
      push_neg at hlt
      have htrue : staleCheck fs (get_indexed_files col) fp = true :=
        (staleCheck_iff fs col fp).mpr (Or.inr ⟨e, hl, hlt⟩)
      rw [h] at htrue
      exact Bool.noConfusion htrue
  · rintro ⟨e, he, hle⟩
    cases hsc : staleCheck fs (get_indexed_files col) fp with
    | false => rfl
    | true =>
      rcases (staleCheck_iff fs col fp).mp hsc with h1 | ⟨e2, he2, hlt⟩
      · rw [h1] at he
        exact Option.noConfusion he
      · rw [he] at he2
        obtain rfl : e = e2 := by injection he2
        exact absurd hlt (not_lt.mpr hle)

/-- C2 counterexample: a catalog containing one existing file with empty
content.  The first pass plans it, skips it without an index write (nothing to
embed), and the second pass plans it again: the second run's `toIndex` is not
empty, refuting the claim for this file set. -/
theorem C2_counterexample :
    (auto_index_files fsC2 embedW clockW (fun _ => false) []
      ["e.txt"]).toIndexPlan = ["e.txt"] ∧
    (auto_index_files fsC2 embedW clockW (fun _ => false)
      (auto_index_files fsC2 embedW clockW (fun _ => false) []
        ["e.txt"]).finalCol ["e.txt"]).toIndexPlan = ["e.txt"] ∧
    (["e.txt"] : List String) ≠ [] :=
  ⟨by decide, by decide, by decide⟩

/-- C2 (amended): synchronization is idempotent for file sets whose planned
work all succeeds: if every catalog file has non-empty (post-strip) content
and a successful embedding, wall-clock time at indexing is at least each
file's mtime, and the pass is not cancelled, then a second pass over the
unchanged filesystem plans zero indexing and zero removal (its `toIndex` and
`toRemove` are both empty). -/
theorem C2_idempotent_after_successful_pass (fs : FS)
    (embed : String → Option (List Rat)) (clock : Nat → Time)
    (col : Collection) (all_files : List String)
    (hne : ∀ fp ∈ all_files, pyStrip (fs.content fp) ≠ "")
    (hemb : ∀ fp ∈ all_files, embed (fs.content fp) ≠ none)
    (hclk : ∀ (k : Nat) (fp : String), fp ∈ all_files →
      fs.mtime fp ≤ clock k) :
    (auto_index_files fs embed clock (fun _ => false)
      (auto_index_files fs embed clock (fun _ => false) col
        all_files).finalCol all_files).toIndexPlan = [] ∧
    (auto_index_files fs embed clock (fun _ => false)
      (auto_index_files fs embed clock (fun _ => false) col
        all_files).finalCol all_files).toRemovePlan = [] := by
  have he := auto_index_files_eq fs embed clock (fun _ => false) col all_files
  obtain ⟨rpre, rsuf, hsplitR, hcolR, _, _, _, _, _, hcanR⟩ :=
    runRemove_spec (fun _ => false) (totalOps fs col all_files)
      (get_files_to_index fs col all_files).2
      { col := col, removed_c := 0, indexed_c := 0, op_c := 0,
        events := [], ops := [] }
  set R := runRemove (fun _ => false) (totalOps fs col all_files)
    (get_files_to_index fs col all_files).2
    { col := col, removed_c := 0, indexed_c := 0, op_c := 0,
      events := [], ops := [] } with hRdef
  set E := runIndex fs embed clock (fun _ => false) (totalOps fs col all_files)
    (sortedPlan fs col all_files) R with hEdef
  have hendE : endState fs embed clock (fun _ => false) col all_files = E := rfl
  have hrsuf : rsuf = [] := by
    cases rsuf with
    | nil => rfl
    | cons a as => exact Bool.noConfusion (hcanR (by simp))
  have hrpre : rpre = (get_files_to_index fs col all_files).2 := by
    rw [hsplitR, hrsuf, List.append_nil]
  have hRcol : R.col =
      List.foldl (fun c q => deleteId q c) col
        (get_files_to_index fs col all_files).2 := by
    have h0 : R.col = List.foldl (fun c q => deleteId q c) col rpre := hcolR
    rw [h0, hrpre]
  have hfcol : (auto_index_files fs embed clock (fun _ => false) col
      all_files).finalCol = E.col := by rw [he, hendE]
  have hlookup2 : ∀ q, lookupEntry E.col q ≠ none →
      q ∈ all_files ∨ fs.onDisk q = true := by
    intro q hq
    by_cases hqt : q ∈ sortedPlan fs col all_files
    · left
      have hqti : q ∈ (get_files_to_index fs col all_files).1 := by
        unfold sortedPlan at hqt
        exact (List.mem_insertionSort fileOrder).mp hqt
      exact ((mem_to_index_iff fs col all_files q).mp hqti).1
    · rw [hEdef, runIndex_lookup_not_mem fs embed clock (fun _ => false)
        (totalOps fs col all_files) (sortedPlan fs col all_files) R q hqt,
        hRcol, lookupEntry_foldl_delete] at hq
      by_cases hqr : q ∈ (get_files_to_index fs col all_files).2
      · rw [if_pos hqr] at hq
        exact absurd rfl hq
      · rw [if_neg hqr] at hq
        by_cases hmem : q ∈ all_files
        · exact Or.inl hmem
        · right
          cases hd : fs.onDisk q with
          | true => rfl
          | false =>
            exact absurd
              ((mem_to_remove_iff fs col all_files q).mpr ⟨hq, hmem, hd⟩) hqr
  have hstale2 : ∀ fp ∈ all_files, fs.onDisk fp = true →
      IMAGE_EXTS.contains (extLower fp) = false →
      staleCheck fs (get_indexed_files E.col) fp = false := by
    intro fp hfp hdisk himg
    rw [staleCheck_eq_false_iff]
    by_cases hft : fp ∈ sortedPlan fs col all_files
    · obtain ⟨v, hv⟩ := Option.ne_none_iff_exists'.mp (hemb fp hfp)
      have hnee : (pyStrip (fs.content fp) == "") = false := by
        cases hb : pyStrip (fs.content fp) == "" with
        | false => rfl
        | true => exact absurd (eq_of_beq hb) (hne fp hfp)
      obtain ⟨k, hk⟩ := runIndex_lookup_success fs embed clock
        (totalOps fs col all_files) (sortedPlan fs col all_files) R fp v
        hft hnee hv
      rw [hEdef]
      exact ⟨_, hk, hclk k fp hfp⟩
    · have hnotti : fp ∉ (get_files_to_index fs col all_files).1 := by
        intro h
        apply hft
        unfold sortedPlan
        exact (List.mem_insertionSort fileOrder).mpr h
      have hsc : staleCheck fs (get_indexed_files col) fp = false := by
        cases hsc2 : staleCheck fs (get_indexed_files col) fp with
        | false => rfl
        | true =>
          exact absurd ((mem_to_index_iff fs col all_files fp).mpr
            ⟨hfp, hdisk, himg, hsc2⟩) hnotti
      obtain ⟨e, helook, hle⟩ := (staleCheck_eq_false_iff fs col fp).mp hsc
      refine ⟨e, ?_, hle⟩
      rw [hEdef, runIndex_lookup_not_mem fs embed clock (fun _ => false)
        (totalOps fs col all_files) (sortedPlan fs col all_files) R fp hft,
        hRcol, lookupEntry_foldl_delete]
      have hfpr : fp ∉ (get_files_to_index fs col all_files).2 := by
        intro hmem
        exact ((mem_to_remove_iff fs col all_files fp).mp hmem).2.1 hfp
      rw [if_neg hfpr]
      exact helook
  have hti2 : (get_files_to_index fs E.col all_files).1 = [] := by
    have hshape : (get_files_to_index fs E.col all_files).1 =
        all_files.filter (fun fp =>
          fs.onDisk fp && !(IMAGE_EXTS.contains (extLower fp)) &&
            staleCheck fs (get_indexed_files E.col) fp) := rfl
    rw [hshape, List.filter_eq_nil_iff]
    intro fp hfp
    cases hd : fs.onDisk fp with
    | false => simp [hd]
    | true =>
      cases hi : IMAGE_EXTS.contains (extLower fp) with
      | true => simp [hi]
      | false => simp [hd, hi, hstale2 fp hfp hd hi]
  have htr2 : (get_files_to_index fs E.col all_files).2 = [] := by
    have hshape : (get_files_to_index fs E.col all_files).2 =
        (dictKeys (get_indexed_files E.col)).filter (fun ifp =>
          !(all_files.contains ifp) && !(fs.onDisk ifp)) := rfl
    rw [hshape, List.filter_eq_nil_iff]
    intro q hq
    have hlq : lookupEntry E.col q ≠ none := (mem_dictKeys_iff E.col q).mp hq
    rcases hlookup2 q hlq with hmem | hdq
    · have hc : all_files.contains q = true := List.elem_eq_true_of_mem hmem
      intro habs
      rw [Bool.and_eq_true, hc] at habs
      exact absurd habs.1 (by decide)
    · intro habs
      rw [Bool.and_eq_true, hdq] at habs
      exact absurd habs.2 (by decide)
  rw [hfcol, auto_index_files_eq fs embed clock (fun _ => false) E.col all_files]
  constructor
  · show List.insertionSort fileOrder (get_files_to_index fs E.col all_files).1 = []
    rw [hti2]
    rfl
  · exact htr2

/-- C2 witness: a second pass over one successfully indexed file plans no
work. -/
theorem C2_idempotent_after_successful_pass_witness :
    (auto_index_files fsW embedW clockW (fun _ => false)
      (auto_index_files fsW embedW clockW (fun _ => false) []
        ["a.py"]).finalCol ["a.py"]).toIndexPlan = [] ∧
    (auto_index_files fsW embedW clockW (fun _ => false)
      (auto_index_files fsW embedW clockW (fun _ => false) []
        ["a.py"]).finalCol ["a.py"]).toRemovePlan = [] :=
  C2_idempotent_after_successful_pass fsW embedW clockW [] ["a.py"]
    (by decide) (by decide)
    (fun k fp _ => by show (10 : Rat) ≤ 1000; norm_num)
